import Mathlib

/-!
# prownow: a verification development

A shallow embedding of `main.go` (the depth-windowed merge loop, the local
junit ingestion, the `-dashboard-jobs` flag printer and parser, the style
mapper `fauxRandom` and the terminal selector `selectThings`), followed by the
theorems that settle the specification's claims against it.

Conventions of the embedding:
* Go `int32` values are integers, with `wrap32` applied wherever the source
  performs 32-bit arithmetic or a conversion to `int32`;
* a Go runtime panic (index or slice bounds out of range) is the result `none`;
* a Go `map[string][]string` that is only appended to is a function from keys
  to slices, the absent key being the nil (empty) slice;
* a slice that the source tests against `nil` is an `Option (List _)`.
-/

namespace Prownow

/-! ## Data model (main.go 113-130) -/

/-- `type Status struct` (main.go 126-130); `Count` and `Value` are `int32`. -/
structure Status where
  Count : Int
  Value : Int
  deriving DecidableEq, Repr

/-- `type Test struct` (main.go 120-124). -/
structure Test where
  Name : String
  Statuses : List Status
  ShortTexts : List String
  deriving DecidableEq, Repr

/-- `type JobResult struct` (main.go 113-118); `ChangeLists` is compared with
`nil` by the merge loop, so the nil slice is `none`. -/
structure JobResult where
  Depth : Int
  Tests : List Test
  Query : String
  ChangeLists : Option (List String)
  deriving DecidableEq, Repr

/-- Modelled from the spec: the enum table `test_status.TestStatus_value` of the
testgrid library is not part of the repository; the spec and the source comment
at main.go 331 give the failure state the enum value 12. -/
def TestStatus_value_FAIL : Int := 12

/-! ## Machine integers -/

/-- Two's-complement reduction of an integer to the `int32` range. -/
def wrap32 (x : Int) : Int := (x + 2147483648) % 4294967296 - 2147483648

/-- The merged failure index `map[string][]string` (main.go 375). -/
abbrev Merged := String → List String

/-- `merged[k] = append(merged[k], val)` (main.go 390). -/
def Merged.append (merged : Merged) (k : String) (val : String) : Merged :=
  fun k' => if k' = k then merged k ++ [val] else merged k'

/-! ## The merge loop (main.go 375-394) -/

/-- The attribution built at main.go 386-389 for a FAIL run evaluated at `pos`:
`none` when the read `tests.ChangeLists[pos-1]` is out of range. -/
def attribution (job : String) (changeLists : Option (List String)) (pos : Int) :
    Option String :=
  match changeLists with
  | none => some job
  | some cl =>
    if pos < wrap32 (cl.length : Int) then
      let idx := wrap32 (pos - 1)
      if 0 ≤ idx ∧ idx < (cl.length : Int) then
        some (job ++ "/" ++ cl.getD idx.toNat "")
      else none
    else some job

/-- The inner loop over `v.Statuses` (main.go 379-392), started with the
running position `pos`. -/
def statusLoop (job : String) (changeLists : Option (List String)) (depth : Int)
    (name : String) : Int → List Status → Merged → Option Merged
  | _, [], merged => some merged
  | pos, sv :: rest, merged =>
    let pos1 := wrap32 (pos + sv.Count)
    if pos1 > depth then some merged
    else if sv.Value = TestStatus_value_FAIL then
      match attribution job changeLists pos1 with
      | none => none
      | some val => statusLoop job changeLists depth name pos1 rest (merged.append name val)
    else statusLoop job changeLists depth name pos1 rest merged

/-- The loop over `tests.Tests` (main.go 377-393). -/
def testsLoop (job : String) (tests : JobResult) (depth : Int) :
    List Test → Merged → Option Merged
  | [], merged => some merged
  | v :: rest, merged =>
    match statusLoop job tests.ChangeLists depth v.Name 0 v.Statuses merged with
    | none => none
    | some merged1 => testsLoop job tests depth rest merged1

/-- The merge loop of `main` (main.go 375-394) over the entries of `results`
in the order the map iteration yields them. -/
def mergeLoop (depth : Int) : List (String × JobResult) → Merged → Option Merged
  | [], merged => some merged
  | (job, tests) :: rest, merged =>
    match testsLoop job tests depth tests.Tests merged with
    | none => none
    | some merged1 => mergeLoop depth rest merged1

/-- The merged index `main` hands to the template, `none` on a runtime panic. -/
def merge (depth : Int) (results : List (String × JobResult)) : Option Merged :=
  mergeLoop depth results (fun _ => [])

/-! ### Cumulative positions, as the specification counts them -/

/-- Running sums of the counts after `start`: the cumulative position of each
run, counted as an unbounded integer. -/
def cumPosFrom : Int → List Status → List Int
  | _, [] => []
  | start, sv :: rest => (start + sv.Count) :: cumPosFrom (start + sv.Count) rest

/-- Each run of a timeline paired with its cumulative position. -/
def runsWithPos (statuses : List Status) : List (Status × Int) :=
  statuses.zip (cumPosFrom 0 statuses)

/-- The runs the window admits and that are FAIL: cumulative position at most
`depth`, value 12. -/
def failRunsInWindow (depth : Int) (runs : List (Status × Int)) : List (Status × Int) :=
  runs.filter (fun r => decide (r.2 ≤ depth) && decide (r.1.Value = TestStatus_value_FAIL))

/-! ## Local junit ingestion (main.go 134-161, 321-340) -/

/-- The anonymous struct of the `failure` element (main.go 151-154): its
character data and its `message` attribute. A test case without a `failure`
element decodes to the zero value, both fields empty. -/
structure Failure where
  Text : String
  Message : String
  deriving DecidableEq, Repr

/-- The anonymous struct of the `skipped` element (main.go 156-159). -/
structure Skipped where
  Text : String
  Message : String
  deriving DecidableEq, Repr

/-- One entry of `Testsuite.Testcase` (main.go 147-160). -/
structure Testcase where
  Text : String
  Name : String
  Time : String
  Failure : Failure
  SystemOut : String
  Skipped : Skipped
  deriving DecidableEq, Repr

/-- The `property` element of a suite (main.go 142-146). -/
structure Property where
  Text : String
  Name : String
  Value : String
  deriving DecidableEq, Repr

/-- `type Testsuite struct` (main.go 134-161), the decoded document. -/
structure Testsuite where
  Text : String
  Name : String
  Tests : String
  Skipped : String
  Failures : String
  Time : String
  Property : Property
  Testcase : List Testcase
  deriving DecidableEq, Repr

/-- The body of the loop over `junitTests.Testcase` (main.go 330-340): the
status starts as `Status{Count: 1, Value: 0}`, becomes 12 when the text of the
failure element is not empty, and one `Test` is appended. -/
def ingestTestcase (jobs : JobResult) (t : Testcase) : JobResult :=
  let status : Status := { Count := 1, Value := 0 }
  let status : Status := if t.Failure.Text ≠ "" then { status with Value := 12 } else status
  { jobs with Tests := jobs.Tests ++ [{ Name := t.Name, Statuses := [status], ShortTexts := [] }] }

/-- The ingestion of one decoded local document (main.go 327-340):
`results[job]` starts as `JobResult{Depth: depth}` and the loop over the test
cases extends it. -/
def ingest (depth : Int) (junitTests : Testsuite) : JobResult :=
  junitTests.Testcase.foldl ingestTestcase
    { Depth := depth, Tests := [], Query := "", ChangeLists := none }

/-- A test case carries a failure marker that the decoded document shows when
its failure element has text or a `message` attribute. -/
def carriesFailure (t : Testcase) : Bool :=
  decide (t.Failure.Text ≠ "") || decide (t.Failure.Message ≠ "")

/-- The status the ingestion gives a test case: count 1, value 12 when the
failure text is not empty and 0 otherwise. -/
def ingestedTest (t : Testcase) : Test :=
  { Name := t.Name
    Statuses := [{ Count := 1, Value := if t.Failure.Text ≠ "" then 12 else 0 }]
    ShortTexts := [] }

/-- The decoding of `<testcase name="t"><failure message="boom"></failure></testcase>`. -/
def testcaseWithEmptyFailureText : Testcase :=
  { Text := "", Name := "t", Time := "", Failure := { Text := "", Message := "boom" },
    SystemOut := "", Skipped := { Text := "", Message := "" } }

/-- A suite holding `testcaseWithEmptyFailureText` alone. -/
def suiteWithEmptyFailureText : Testsuite :=
  { Text := "", Name := "s", Tests := "1", Skipped := "0", Failures := "1", Time := "",
    Property := { Text := "", Name := "", Value := "" },
    Testcase := [testcaseWithEmptyFailureText] }

/-! ## The `-dashboard-jobs` flag (main.go 84-95, 296-308) -/

/-- The pieces of a character list between the occurrences of `sep`. -/
def splitChars (sep : Char) : List Char → List (List Char)
  | [] => [[]]
  | c :: cs =>
    if c = sep then [] :: splitChars sep cs
    else
      match splitChars sep cs with
      | [] => [[c]]
      | w :: ws => (c :: w) :: ws

/-- `strings.Split(s, sep)` for a separator of one character, the only kind
the source uses (":", "=", ","): an empty `s` yields one empty string. -/
def Split (s : String) (sep : Char) : List String :=
  (splitChars sep s.data).map String.mk

/-- `strings.Join(elems, sep)`. -/
def Join : List String → String → String
  | [], _ => ""
  | [a], _ => a
  | a :: b :: rest, sep => a ++ sep ++ Join (b :: rest) sep

/-- The argument printed after `-dashboard-jobs=` (main.go 300-305) for the
selection `selectedJobs`, its entries in the order the map iteration yields
them: `fmt.Sprintf("%s=%s", d, strings.Join(j, ","))` joined by ":". -/
def flagArg (selectedJobs : List (String × List String)) : String :=
  Join (selectedJobs.map (fun dj => dj.1 ++ "=" ++ Join dj.2 ",")) ":"

/-- The map `dashboardJobsToCompare`: the jobs of a dashboard, `none` for a
dashboard that is not a key. -/
abbrev DashboardJobs := String → Option (List String)

/-- The loop over `dashboards` in `init` (main.go 87-94); `none` is the
`os.Exit(1)` taken when an entry does not split in two at "=". -/
def parseDashboards : List String → DashboardJobs → Option DashboardJobs
  | [], m => some m
  | d :: rest, m =>
    match Split d '=' with
    | [d0, d1] => parseDashboards rest (fun k => if k = d0 then some (Split d1 ',') else m k)
    | _ => none

/-- The parsing of the `-dashboard-jobs` flag in `init` (main.go 84-95): an
empty flag leaves the map without keys. -/
def parseDashboardJobs (dashboardJobs : String) : Option DashboardJobs :=
  if dashboardJobs ≠ "" then
    parseDashboards (Split dashboardJobs ':') (fun _ => none)
  else some (fun _ => none)

/-- The jobs a selection holds for a dashboard. -/
def selectionJobs (selectedJobs : List (String × List String)) (k : String) :
    Option (List String) :=
  (selectedJobs.find? (fun dj => decide (dj.1 = k))).map (fun dj => dj.2)

/-! ## The style mapper (main.go 176-226) -/

/-- The two library functions `fauxRandom` rests on and that the repository
does not contain, taken as parameters: `sha1Sum` is the SHA-1 digest of the
bytes of a string (`sha1.New`, `Write`, `Sum(nil)`), and `Intn seed n` is the
draw `rand.New(rand.NewSource(seed)).Intn(n)` for a positive `n`. -/
structure Library where
  sha1Sum : String → List (Fin 256)
  Intn : Int → Int → Int

/-- The documented contract of `(*rand.Rand).Intn`: for `n > 0` the draw is in
the half-open interval `[0, n)`. -/
def Library.IntnInRange (lib : Library) : Prop :=
  ∀ (seed n : Int), 0 < n → 0 ≤ lib.Intn seed n ∧ lib.Intn seed n < n

/-- The lower-case hexadecimal digit of a value below 16. -/
def hexDigit (n : Nat) : Char :=
  "0123456789abcdef".data.getD n '0'

/-- `hex.EncodeToString`: two lower-case hexadecimal digits per byte. -/
def EncodeToString (bytes : List (Fin 256)) : String :=
  String.mk (bytes.flatMap (fun b => [hexDigit (b.val / 16), hexDigit (b.val % 16)]))

/-- The value of a hexadecimal digit, `none` for any other character. -/
def hexValue (c : Char) : Option Nat :=
  if '0' ≤ c ∧ c ≤ '9' then some (c.toNat - '0'.toNat)
  else if 'a' ≤ c ∧ c ≤ 'f' then some (c.toNat - 'a'.toNat + 10)
  else if 'A' ≤ c ∧ c ≤ 'F' then some (c.toNat - 'A'.toNat + 10)
  else none

/-- The number a list of hexadecimal digits denotes after the digits read so
far gave `acc`; `none` when a character is not a digit. -/
def parseHexDigits : List Char → Nat → Option Nat
  | [], acc => some acc
  | c :: cs, acc =>
    match hexValue c with
    | none => none
    | some d => parseHexDigits cs (acc * 16 + d)

/-- `new(big.Int).SetString(s, 16)`: an optional sign and at least one digit,
the whole string being read; `none` is `success == false`. -/
def SetString16 (s : String) : Option Int :=
  match s.data with
  | [] => none
  | '-' :: cs => if cs = [] then none else (parseHexDigits cs 0).map (fun n => -(n : Int))
  | '+' :: cs => if cs = [] then none else (parseHexDigits cs 0).map (fun n => (n : Int))
  | cs => (parseHexDigits cs 0).map (fun n => (n : Int))

/-- Two's-complement reduction of an integer to the `int64` range. -/
def wrap64 (x : Int) : Int :=
  (x + 9223372036854775808) % 18446744073709551616 - 9223372036854775808

/-- `(*big.Int).Int64`: the low 64 bits of the magnitude as an `int64`, negated
for a negative number. -/
def Int64 (x : Int) : Int :=
  let v := wrap64 ((x.natAbs % 18446744073709551616 : Nat) : Int)
  if x < 0 then wrap64 (-v) else v

/-- `fauxRandom` (main.go 214-226); `none` is the panic of `Intn` on a
non-positive `max`. -/
def fauxRandom (lib : Library) (i : String) (max : Int) : Option Int :=
  let hashSumByte := lib.sha1Sum (i ++ "some_consistant_random_salt_string")
  let hexVal := EncodeToString hashSumByte
  match SetString16 hexVal with
  | some intBase16 =>
    if max ≤ 0 then none else some (lib.Intn (Int64 intBase16) max)
  | none => some 0

/-- The table `colors` of `colorFromString` (main.go 181-190). -/
def colors : List String :=
  ["primary", "secondary", "success", "danger", "warning", "info", "light", "dark"]

/-- The table `emojis` of `emojiFromString` (main.go 200-209). -/
def emojis : List String :=
  [":grimacing:", ":kiss:", ":eyes:", ":v:", ":dizzy_face:", ":whale:",
   ":mailbox_with_no_mail:", ":basketball:"]

/-- The read `table[index]` of a Go slice by an `int`: `none` out of range. -/
def indexTable (table : List String) (index : Int) : Option String :=
  if 0 ≤ index ∧ index < (table.length : Int) then table.get? index.toNat else none

/-- `colorFromString` (main.go 176-193). -/
def colorFromString (lib : Library) (i : String) : Option String :=
  match Split i '/' with
  | [] => some "primary"
  | c0 :: _ =>
    match fauxRandom lib c0 (colors.length : Int) with
    | none => none
    | some colorIndex => indexTable colors colorIndex

/-- `emojiFromString` (main.go 195-212). -/
def emojiFromString (lib : Library) (i : String) : Option String :=
  match Split i '/' with
  | [] => some ":grimacing:"
  | c0 :: _ =>
    match fauxRandom lib c0 (emojis.length : Int) with
    | none => none
    | some emojiIndex => indexTable emojis emojiIndex

/-- A stand-in library for evaluating the style mapper on concrete inputs: a
constant digest of twenty bytes and the draw `seed mod n`. -/
def sampleLibrary : Library :=
  { sha1Sum := fun _ => List.replicate 20 (7 : Fin 256)
    Intn := fun seed n => seed % n }

/-! ## The terminal selector (main.go 476-537) -/

/-- The mark the selector puts in front of a selected row (main.go 515, 524). -/
def markPrefix : String := "[✔](fg:green):"

/-- `strings.HasPrefix(s, pre)`. -/
def HasPrefix (s pre : String) : Bool := pre.data.isPrefixOf s.data

/-- `strings.TrimPrefix(s, pre)`. -/
def TrimPrefix (s pre : String) : String :=
  if HasPrefix s pre then String.mk (s.data.drop pre.data.length) else s

/-- The fields of the termui `widgets.List` that `selectThings` reads and
writes: the rows and the index of the highlighted row (a Go `int`). -/
structure ListWidget where
  Rows : List String
  SelectedRow : Int
  deriving DecidableEq, Repr

/-- Modelled from the spec: the list widget of the termui library is not part
of the repository. `ScrollAmount` moves the highlight by `amount` rows and
keeps it on a row: past the last row it stops on the last, before the first on
the first ("highlight advances one row", "highlight retreats one row"). -/
def ListWidget.ScrollAmount (self : ListWidget) (amount : Int) : ListWidget :=
  if (self.Rows.length : Int) - self.SelectedRow ≤ amount then
    { self with SelectedRow := (self.Rows.length : Int) - 1 }
  else if self.SelectedRow + amount < 0 then
    { self with SelectedRow := 0 }
  else
    { self with SelectedRow := self.SelectedRow + amount }

/-- Modelled from the spec: termui `ScrollUp`, one row back. -/
def ListWidget.ScrollUp (self : ListWidget) : ListWidget := self.ScrollAmount (-1)

/-- Modelled from the spec: termui `ScrollDown`, one row on. -/
def ListWidget.ScrollDown (self : ListWidget) : ListWidget := self.ScrollAmount 1

/-- Modelled from the spec: termui `ScrollTop`, the wrap "from the last row to
the first". -/
def ListWidget.ScrollTop (self : ListWidget) : ListWidget := { self with SelectedRow := 0 }

/-- Modelled from the spec: termui `ScrollBottom`, the wrap "from the first row
to the last". -/
def ListWidget.ScrollBottom (self : ListWidget) : ListWidget :=
  { self with SelectedRow := (self.Rows.length : Int) - 1 }

/-- The read `l.Rows[l.SelectedRow]` (main.go 514, 529): `none` out of range. -/
def ListWidget.current (self : ListWidget) : Option String :=
  if 0 ≤ self.SelectedRow ∧ self.SelectedRow < (self.Rows.length : Int) then
    self.Rows.get? self.SelectedRow.toNat
  else none

/-- The state of the event loop of `selectThings`: the widget `l` and the
slice `selectedThings`. -/
structure Selector where
  l : ListWidget
  selectedThings : List String
  deriving DecidableEq, Repr

/-- The statement `selectedThings = append(selectedThings[:i], selectedThings[i+1:]...)`
(main.go 519) on the backing array `backing` of the slice being ranged over,
`len` being the current length of `selectedThings`: the cells from `i+1` up to
`len` move one place down and the length drops by one; the slice expression
`selectedThings[i+1:]` panics when `i+1` exceeds the current length. -/
def removeAt (backing : List String) (len i : Nat) : Option (List String × Nat) :=
  if i + 1 ≤ len then
    some (backing.take i ++ (backing.drop (i + 1)).take (len - (i + 1)) ++ backing.drop (len - 1),
          len - 1)
  else none

/-- The loop `for i, item := range selectedThings` (main.go 517-521) with
`todo` iterations left, the next being iteration `i`: the range statement
fixed the number of iterations when it was entered and reads `item` from the
backing array, which the body shifts; the result is the slice
`selectedThings` at the end. -/
def removeLoop (current : String) : Nat → Nat → List String → Nat → Option (List String)
  | 0, _, backing, len => some (backing.take len)
  | todo + 1, i, backing, len =>
    if backing.getD i "" = current then
      match removeAt backing len i with
      | none => none
      | some (backing1, len1) => removeLoop current todo (i + 1) backing1 len1
    else removeLoop current todo (i + 1) backing len

/-- The removal of `current` from `selectedThings` (main.go 517-521). -/
def removeThing (selectedThings : List String) (current : String) : Option (List String) :=
  removeLoop current selectedThings.length 0 selectedThings selectedThings.length

/-- The case `"<Tab>", "<Space>"` (main.go 513-526); `none` is a panic. -/
def toggle (s : Selector) : Option Selector :=
  match s.l.current with
  | none => none
  | some current =>
    if HasPrefix current markPrefix then
      let current := TrimPrefix current markPrefix
      match removeThing s.selectedThings current with
      | none => none
      | some selectedThings =>
        some { l := { s.l with Rows := s.l.Rows.set s.l.SelectedRow.toNat current },
               selectedThings := selectedThings }
    else
      some { l := { s.l with Rows := s.l.Rows.set s.l.SelectedRow.toNat (markPrefix ++ current) },
             selectedThings := s.selectedThings ++ [current] }

/-- The case `"j", "<Down>"` (main.go 501-506). -/
def moveDown (s : Selector) : Selector :=
  if s.l.SelectedRow = (s.l.Rows.length : Int) - 1 then { s with l := s.l.ScrollTop }
  else { s with l := s.l.ScrollDown }

/-- The case `"k", "<Up>"` (main.go 507-512). -/
def moveUp (s : Selector) : Selector :=
  if s.l.SelectedRow = 0 then { s with l := s.l.ScrollBottom }
  else { s with l := s.l.ScrollUp }

/-- What one pass of the event loop does. -/
inductive Step where
  | next (s : Selector)
  | result (selectedThings : List String) (quit : Bool)
  | panic
  deriving DecidableEq, Repr

/-- The body of the event loop (main.go 497-533) on the event with identifier
`id`; any other identifier falls through the switch. -/
def step (s : Selector) (id : String) : Step :=
  if id = "q" ∨ id = "<C-c>" then Step.result s.selectedThings true
  else if id = "j" ∨ id = "<Down>" then Step.next (moveDown s)
  else if id = "k" ∨ id = "<Up>" then Step.next (moveUp s)
  else if id = "<Tab>" ∨ id = "<Space>" then
    match toggle s with
    | none => Step.panic
    | some s1 => Step.next s1
  else if id = "<Enter>" then
    if s.selectedThings.length = 0 then
      match s.l.current with
      | none => Step.panic
      | some row => Step.result (s.selectedThings ++ [row]) false
    else Step.result s.selectedThings false
  else Step.next s

/-- How a call of `selectThings` stands once the events given are consumed. -/
inductive Outcome where
  | returned (selectedThings : List String) (quit : Bool)
  | panicked
  | waiting (s : Selector)
  deriving DecidableEq, Repr

/-- The event loop (main.go 496-534) fed the identifiers of the events in the
order they arrive; `waiting s` is the loop blocked on the next event in
state `s`. -/
def eventLoop : Selector → List String → Outcome
  | s, [] => Outcome.waiting s
  | s, id :: rest =>
    match step s id with
    | Step.next s1 => eventLoop s1 rest
    | Step.result selectedThings quit => Outcome.returned selectedThings quit
    | Step.panic => Outcome.panicked

/-- The state in which the event loop is entered (main.go 485-494): the rows
are the candidates, the first row is highlighted, nothing is selected. -/
def initial (things : List String) : Selector :=
  { l := { Rows := things, SelectedRow := 0 }, selectedThings := [] }

/-- `selectThings` (main.go 476-537) on the candidates `things` and the events
that arrive; an empty candidate list returns at once. -/
def selectThings (things : List String) (events : List String) : Outcome :=
  if things.length = 0 then Outcome.returned [] false
  else eventLoop (initial things) events

/-! ### The selection as the specification describes it -/

/-- An event identifier that makes the loop pass its toggle case. -/
def isToggle (id : String) : Bool := decide (id = "<Tab>" ∨ id = "<Space>")

/-- An event identifier on which the loop goes on: any but Quit and Confirm
(the moves, the toggles, and the identifiers the switch ignores). -/
def keepsLooping (id : String) : Prop := id ≠ "q" ∧ id ≠ "<C-c>" ∧ id ≠ "<Enter>"

instance (id : String) : Decidable (keepsLooping id) := by
  unfold keepsLooping; infer_instance

/-- The rows highlighted at the toggle events of a run, oldest first. -/
def toggleTrace : Selector → List String → List Nat
  | _, [] => []
  | s, id :: rest =>
    match step s id with
    | Step.next s1 =>
      if isToggle id then s.l.SelectedRow.toNat :: toggleTrace s1 rest else toggleTrace s1 rest
    | _ => []

/-- The rows of a toggle trace, each once, in the order of their last toggle. -/
def lastToggleOrder : List Nat → List Nat
  | [] => []
  | k :: rest => if k ∈ rest then lastToggleOrder rest else k :: lastToggleOrder rest

/-- A row is on after a trace when it was toggled an odd number of times: its
last toggle then switched it on. -/
def toggledOn (trace : List Nat) (k : Nat) : Bool := decide (trace.count k % 2 = 1)

/-- The rows that are on after a trace, in the order they were last toggled on. -/
def selectedRows (trace : List Nat) : List Nat :=
  (lastToggleOrder trace).filter (toggledOn trace)

/-- The candidate of row `k`. -/
def thingAt (things : List String) (k : Nat) : String := things.getD k ""

/-- No candidate starts with the mark. -/
def noMark (things : List String) : Prop := ∀ x ∈ things, HasPrefix x markPrefix = false

instance (things : List String) : Decidable (noMark things) := by
  unfold noMark; infer_instance

/-- The invariant of the event loop for the candidates `things`, after the
toggles of `trace`: the highlight is on a row, each row shows its candidate,
marked exactly when the row is on, and the selected list holds the candidates
of the rows that are on, in the order they were last toggled on. -/
structure LoopInvariant (things : List String) (trace : List Nat) (s : Selector) : Prop where
  highlight_lo : 0 ≤ s.l.SelectedRow
  highlight_hi : s.l.SelectedRow < (things.length : Int)
  rows_eq : ∀ k : Nat, s.l.Rows[k]? =
    things[k]?.map (fun x => if toggledOn trace k then markPrefix ++ x else x)
  selected_eq : s.selectedThings = (selectedRows trace).map (thingAt things)
  trace_valid : ∀ k ∈ trace, k < things.length

/-- A name is free of the three separators of the flag syntax. -/
def separatorFree (name : String) : Prop :=
  ':' ∉ name.data ∧ '=' ∉ name.data ∧ ',' ∉ name.data

instance (name : String) : Decidable (separatorFree name) := by
  unfold separatorFree; infer_instance

/-! ## Lemmas on the merge loop -/

theorem wrap32_of_range (x : Int) (h1 : -2147483648 ≤ x) (h2 : x < 2147483648) :
    wrap32 x = x := by
  unfold wrap32; omega

theorem cumPosFrom_gt (l : List Status) :
    ∀ (start : Int), (∀ sv ∈ l, 1 ≤ sv.Count) → ∀ p ∈ cumPosFrom start l, start < p := by
  induction l with
  | nil => intro start _ p hp; simp [cumPosFrom] at hp
  | cons sv rest ih =>
    intro start hc p hp
    have h1 : 1 ≤ sv.Count := hc sv (List.mem_cons_self _ _)
    simp only [cumPosFrom, List.mem_cons] at hp
    rcases hp with hp | hp
    · omega
    · have := ih (start + sv.Count) (fun x hx => hc x (List.mem_cons_of_mem _ hx)) p hp
      omega

theorem cumPosFrom_le_sum (l : List Status) :
    ∀ (start : Int), (∀ sv ∈ l, 1 ≤ sv.Count) →
      ∀ p ∈ cumPosFrom start l, p ≤ start + (l.map Status.Count).sum := by
  induction l with
  | nil => intro start _ p hp; simp [cumPosFrom] at hp
  | cons sv rest ih =>
    intro start hc p hp
    have hc' : ∀ x ∈ rest, 1 ≤ x.Count := fun x hx => hc x (List.mem_cons_of_mem _ hx)
    have hrest : 0 ≤ (rest.map Status.Count).sum := by
      apply List.sum_nonneg
      intro x hx
      rcases List.mem_map.1 hx with ⟨y, hy, rfl⟩
      have := hc' y hy
      omega
    simp only [cumPosFrom, List.mem_cons] at hp
    simp only [List.map_cons, List.sum_cons]
    rcases hp with hp | hp
    · omega
    · have := ih (start + sv.Count) hc' p hp
      omega

theorem cumPosFrom_length (l : List Status) :
    ∀ (start : Int), (cumPosFrom start l).length = l.length := by
  induction l with
  | nil => intro start; rfl
  | cons sv rest ih => intro start; simp [cumPosFrom, ih]

/-- Past the window nothing is admitted: once the running position exceeds
`depth`, every later run has a larger cumulative position. -/
theorem failRunsInWindow_past (depth : Int) (l : List Status) (start : Int)
    (hc : ∀ sv ∈ l, 1 ≤ sv.Count) (hs : depth < start) :
    failRunsInWindow depth (l.zip (cumPosFrom start l)) = [] := by
  unfold failRunsInWindow
  rw [List.filter_eq_nil_iff]
  intro r hr
  have hp : r.2 ∈ cumPosFrom start l := (List.of_mem_zip hr).2
  have := cumPosFrom_gt l start hc r.2 hp
  have hlt : ¬ r.2 ≤ depth := by omega
  simp [hlt]

/-- With the position in `[1, 2^31)` the read of `ChangeLists[pos-1]` that the
guard at main.go 387 admits is in bounds. -/
theorem attribution_isSome (job : String) (cl : Option (List String)) (pos : Int)
    (h1 : 1 ≤ pos) (h2 : pos < 2147483648) : ∃ val, attribution job cl pos = some val := by
  cases cl with
  | none => exact ⟨job, rfl⟩
  | some xs =>
    simp only [attribution]
    by_cases hg : pos < wrap32 (xs.length : Int)
    · rw [if_pos hg]
      have hw : wrap32 (pos - 1) = pos - 1 := wrap32_of_range _ (by omega) (by omega)
      have hlen : pos - 1 < (xs.length : Int) := by
        have : wrap32 (xs.length : Int) ≤ (xs.length : Int) := by unfold wrap32; omega
        omega
      simp only [hw]
      rw [if_pos ⟨by omega, hlen⟩]
      exact ⟨_, rfl⟩
    · rw [if_neg hg]
      exact ⟨job, rfl⟩

/-- The inner loop, from any non-negative running position that cannot
overflow: it returns, having appended one attribution per FAIL run in the
window, in timeline order. -/
theorem statusLoop_spec (job : String) (cl : Option (List String)) (depth : Int)
    (name : String) (l : List Status) :
    ∀ (pos : Int) (merged : Merged), 0 ≤ pos → (∀ sv ∈ l, 1 ≤ sv.Count) →
      pos + (l.map Status.Count).sum < 2147483648 →
      ∃ attrs : List String,
        statusLoop job cl depth name pos l merged
            = some (fun k => if k = name then merged k ++ attrs else merged k)
          ∧ attrs.map some
            = (failRunsInWindow depth (l.zip (cumPosFrom pos l))).map
                (fun r => attribution job cl r.2) := by
  induction l with
  | nil =>
    intro pos merged _ _ _
    refine ⟨[], ?_, ?_⟩
    · simp [statusLoop]
    · simp [cumPosFrom, failRunsInWindow]
  | cons sv rest ih =>
    intro pos merged hpos hc hsum
    have h1 : 1 ≤ sv.Count := hc sv (List.mem_cons_self _ _)
    have hc' : ∀ x ∈ rest, 1 ≤ x.Count := fun x hx => hc x (List.mem_cons_of_mem _ hx)
    have hrest : 0 ≤ (rest.map Status.Count).sum := by
      apply List.sum_nonneg
      intro x hx
      rcases List.mem_map.1 hx with ⟨y, hy, rfl⟩
      have := hc' y hy
      omega
    simp only [List.map_cons, List.sum_cons] at hsum
    have hw : wrap32 (pos + sv.Count) = pos + sv.Count :=
      wrap32_of_range _ (by omega) (by omega)
    simp only [statusLoop, hw, cumPosFrom, List.zip_cons_cons]
    by_cases hd : pos + sv.Count > depth
    · rw [if_pos hd]
      refine ⟨[], ?_, ?_⟩
      · simp
      · have hpast := failRunsInWindow_past depth rest (pos + sv.Count) hc' hd
        have hnot : ¬ pos + sv.Count ≤ depth := by omega
        unfold failRunsInWindow at hpast ⊢
        simp [List.filter_cons, hnot, hpast]
    · rw [if_neg hd]
      have hle : pos + sv.Count ≤ depth := by omega
      obtain ⟨val, hval⟩ := attribution_isSome job cl (pos + sv.Count) (by omega) (by omega)
      by_cases hf : sv.Value = TestStatus_value_FAIL
      · rw [if_pos hf, hval]
        obtain ⟨attrs, hrun, hattrs⟩ :=
          ih (pos + sv.Count) (merged.append name val) (by omega) hc' (by omega)
        refine ⟨val :: attrs, ?_, ?_⟩
        · show statusLoop job cl depth name (pos + sv.Count) rest (merged.append name val) = _
          rw [hrun]
          congr 1
          funext k
          by_cases hk : k = name
          · simp [hk, Merged.append]
          · simp [hk, Merged.append]
        · unfold failRunsInWindow at hattrs ⊢
          simp [List.filter_cons, hle, hf, hval, hattrs]
      · rw [if_neg hf]
        obtain ⟨attrs, hrun, hattrs⟩ := ih (pos + sv.Count) merged (by omega) hc' (by omega)
        refine ⟨attrs, hrun, ?_⟩
        unfold failRunsInWindow at hattrs ⊢
        simp [List.filter_cons, hf, hattrs]

/-- With counts at least one the cumulative positions increase, so the runs
admitted by the window are a prefix of the timeline: filtering on
`pos ≤ depth` is cutting at the first run that exceeds `depth`. -/
theorem failRunsInWindow_eq_takeWhile (depth : Int) (l : List Status) :
    ∀ (start : Int), (∀ sv ∈ l, 1 ≤ sv.Count) →
      failRunsInWindow depth (l.zip (cumPosFrom start l))
        = ((l.zip (cumPosFrom start l)).takeWhile (fun r => decide (r.2 ≤ depth))).filter
            (fun r => decide (r.1.Value = TestStatus_value_FAIL)) := by
  induction l with
  | nil => intro start _; simp [cumPosFrom, failRunsInWindow]
  | cons sv rest ih =>
    intro start hc
    have hc' : ∀ x ∈ rest, 1 ≤ x.Count := fun x hx => hc x (List.mem_cons_of_mem _ hx)
    simp only [cumPosFrom, List.zip_cons_cons]
    by_cases hd : start + sv.Count ≤ depth
    · have := ih (start + sv.Count) hc'
      unfold failRunsInWindow at this ⊢
      by_cases hf : sv.Value = TestStatus_value_FAIL
      · simp [List.filter_cons, List.takeWhile_cons, hd, hf, this]
      · simp [List.filter_cons, List.takeWhile_cons, hd, hf, this]
    · have hpast := failRunsInWindow_past depth rest (start + sv.Count) hc' (by omega)
      unfold failRunsInWindow at hpast ⊢
      simp [List.filter_cons, List.takeWhile_cons, hd, hpast]

/-- A run that carries the running position past `depth` ends the loop: the
timeline behaves as if it stopped before that run. -/
theorem statusLoop_append_break (job : String) (cl : Option (List String)) (depth : Int)
    (name : String) (r : Status) (post : List Status) (pre : List Status) :
    ∀ (pos : Int) (merged : Merged), 0 ≤ pos → (∀ sv ∈ pre, 1 ≤ sv.Count) → 1 ≤ r.Count →
      pos + (pre.map Status.Count).sum + r.Count < 2147483648 →
      depth < pos + (pre.map Status.Count).sum + r.Count →
      statusLoop job cl depth name pos (pre ++ r :: post) merged
        = statusLoop job cl depth name pos pre merged := by
  induction pre with
  | nil =>
    intro pos merged hpos _ hr hsum hd
    simp only [List.map_nil, List.sum_nil, add_zero] at hsum hd
    have hw : wrap32 (pos + r.Count) = pos + r.Count := wrap32_of_range _ (by omega) (by omega)
    simp [statusLoop, hw, hd]
  | cons sv rest ih =>
    intro pos merged hpos hc hr hsum hd
    have h1 : 1 ≤ sv.Count := hc sv (List.mem_cons_self _ _)
    have hc' : ∀ x ∈ rest, 1 ≤ x.Count := fun x hx => hc x (List.mem_cons_of_mem _ hx)
    have hrest : 0 ≤ (rest.map Status.Count).sum := by
      apply List.sum_nonneg
      intro x hx
      rcases List.mem_map.1 hx with ⟨y, hy, rfl⟩
      have := hc' y hy
      omega
    simp only [List.map_cons, List.sum_cons] at hsum hd
    have hw : wrap32 (pos + sv.Count) = pos + sv.Count :=
      wrap32_of_range _ (by omega) (by omega)
    simp only [List.cons_append, statusLoop, hw]
    have ihm := fun m => ih (pos + sv.Count) m (by omega) hc' hr (by omega) (by omega)
    split
    · rfl
    · split
      · split
        · rfl
        · exact ihm _
      · exact ihm _

/-! ## Claims on the merge loop -/

/-- C1: for a test whose runs all have count at least one and whose counts sum
below 2^31, and every depth (of at least one or not), the merge loop returns and appends to
`merged[v.Name]` exactly one attribution per FAIL run (value 12) whose
cumulative position is at most `depth`, in timeline order, each the attribution
of that run's position; the admitted runs are those before the first run whose
cumulative position exceeds `depth`, so that run and every later one append
nothing, and every other key of `merged` is untouched. -/
theorem merge_window_attributions (job : String) (tests : JobResult) (depth : Int) (v : Test)
    (merged : Merged) (hcount : ∀ sv ∈ v.Statuses, 1 ≤ sv.Count)
    (hfit : (v.Statuses.map Status.Count).sum < 2147483648) :
    ∃ attrs : List String,
      statusLoop job tests.ChangeLists depth v.Name 0 v.Statuses merged
          = some (fun k => if k = v.Name then merged k ++ attrs else merged k)
        ∧ attrs.map some
          = (failRunsInWindow depth (runsWithPos v.Statuses)).map
              (fun r => attribution job tests.ChangeLists r.2)
        ∧ attrs.length = (failRunsInWindow depth (runsWithPos v.Statuses)).length
        ∧ failRunsInWindow depth (runsWithPos v.Statuses)
          = ((runsWithPos v.Statuses).takeWhile (fun r => decide (r.2 ≤ depth))).filter
              (fun r => decide (r.1.Value = TestStatus_value_FAIL)) := by
  obtain ⟨attrs, hrun, hattrs⟩ :=
    statusLoop_spec job tests.ChangeLists depth v.Name v.Statuses 0 merged (le_refl 0) hcount
      (by omega)
  refine ⟨attrs, hrun, hattrs, ?_, failRunsInWindow_eq_takeWhile depth v.Statuses 0 hcount⟩
  have := congrArg List.length hattrs
  simpa [runsWithPos] using this

/-- C1, at the two timelines of the specification: `[(1,PASS),(1,FAIL),(5,FAIL)]`
with depth 2 and `[(3,FAIL)]` with depth 5 each yield exactly one attribution. -/
theorem merge_window_attributions_witness :
    (∃ attrs : List String,
      statusLoop "job" none 2 "t" 0 [⟨1, 1⟩, ⟨1, 12⟩, ⟨5, 12⟩] (fun _ => [])
          = some (fun k => if k = "t" then [] ++ attrs else [])
        ∧ attrs.length = 1)
    ∧ (∃ attrs : List String,
      statusLoop "job" none 5 "t" 0 [⟨3, 12⟩] (fun _ => [])
          = some (fun k => if k = "t" then [] ++ attrs else [])
        ∧ attrs.length = 1) := by
  constructor
  · obtain ⟨attrs, hrun, _, hlen, _⟩ :=
      merge_window_attributions "job" ⟨2, [], "", none⟩ 2 ⟨"t", [⟨1, 1⟩, ⟨1, 12⟩, ⟨5, 12⟩], []⟩
        (fun _ => []) (by decide) (by decide)
    exact ⟨attrs, hrun, by rw [hlen]; decide⟩
  · obtain ⟨attrs, hrun, _, hlen, _⟩ :=
      merge_window_attributions "job" ⟨5, [], "", none⟩ 5 ⟨"t", [⟨3, 12⟩], []⟩
        (fun _ => []) (by decide) (by decide)
    exact ⟨attrs, hrun, by rw [hlen]; decide⟩

/-- C2, at the failing input: with `changeLists = ["rev1","rev2"]` the entry at
index 1 exists, yet a FAIL run evaluated at `pos = 2` is attributed to the job
alone, because the guard at main.go 387 is `pos < len(changeLists)`; with
`["rev1","rev2","rev3"]` the same position yields `job/rev2`. -/
theorem attribution_drops_last_revision :
    (["rev1", "rev2"] : List String).get? (2 - 1) = some "rev2"
      ∧ attribution "job" (some ["rev1", "rev2"]) 2 = some "job"
      ∧ (merge 5 [("job", ⟨5, [⟨"t", [⟨2, 12⟩], []⟩], "", some ["rev1", "rev2"]⟩)]).map
          (fun m => m "t") = some ["job"]
      ∧ attribution "job" (some ["rev1", "rev2", "rev3"]) 2 = some "job/rev2" := by
  decide

/-- C3, as stated, fails: the run `(3, FAIL)` starts inside a window of depth 2
(position 0 before it) and pushes the position to 3; the loop records no
attribution for it. -/
theorem overshooting_run_not_evaluated :
    (0 : Int) < 2 ∧ (2 : Int) < 0 + 3
      ∧ (merge 2 [("job", ⟨2, [⟨"t", [⟨3, 12⟩], []⟩], "", none⟩)]).map (fun m => m "t")
          = some [] := by
  decide

/-- C3, amended: a run that starts inside the window (the position before it is
below `depth`) but whose count carries the position past `depth` is not
evaluated, nor is any run after it: the loop returns what it returns on the
runs before it, one attribution per FAIL run among those. -/
theorem overshooting_run_skipped (job : String) (cl : Option (List String)) (depth : Int)
    (name : String) (pre : List Status) (r : Status) (post : List Status) (merged : Merged)
    (hcount : ∀ sv ∈ pre, 1 ≤ sv.Count) (hr : 1 ≤ r.Count)
    (hstart : (pre.map Status.Count).sum < depth)
    (hover : depth < (pre.map Status.Count).sum + r.Count)
    (hfit : (pre.map Status.Count).sum + r.Count < 2147483648) :
    ∃ attrs : List String,
      statusLoop job cl depth name 0 (pre ++ r :: post) merged
          = some (fun k => if k = name then merged k ++ attrs else merged k)
        ∧ attrs.map some
          = ((runsWithPos pre).filter
              (fun x => decide (x.1.Value = TestStatus_value_FAIL))).map
              (fun x => attribution job cl x.2) := by
  have hbreak := statusLoop_append_break job cl depth name r post pre 0 merged (le_refl 0)
    hcount hr (by omega) (by omega)
  obtain ⟨attrs, hrun, hattrs⟩ :=
    statusLoop_spec job cl depth name pre 0 merged (le_refl 0) hcount (by omega)
  refine ⟨attrs, by rw [hbreak, hrun], ?_⟩
  rw [hattrs]
  congr 1
  unfold failRunsInWindow runsWithPos
  apply List.filter_congr
  intro x hx
  have hp : x.2 ∈ cumPosFrom 0 pre := (List.of_mem_zip hx).2
  have hle : x.2 ≤ depth := by
    have := cumPosFrom_le_sum pre 0 hcount x.2 hp
    omega
  simp [hle]

/-- C3 amended, at `[(1,PASS),(4,FAIL),(1,FAIL)]` with depth 2: the second run
starts at position 1 and ends at 5, and nothing is recorded. -/
theorem overshooting_run_skipped_witness :
    ∃ attrs : List String,
      statusLoop "job" none 2 "t" 0 ([⟨1, 1⟩] ++ ⟨4, 12⟩ :: [⟨1, 12⟩]) (fun _ => [])
          = some (fun k => if k = "t" then [] ++ attrs else [])
        ∧ attrs = [] := by
  obtain ⟨attrs, hrun, hattrs⟩ :=
    overshooting_run_skipped "job" none 2 "t" [⟨1, 1⟩] ⟨4, 12⟩ [⟨1, 12⟩] (fun _ => [])
      (by decide) (by decide) (by decide) (by decide) (by decide)
  refine ⟨attrs, hrun, ?_⟩
  have h : attrs.map some = [] := by rw [hattrs]; decide
  simpa using h

/-- C4, at the failing input: every count is at least one, the depth is 5 and
`changeLists = ["rev1"]`, yet the 32-bit sum `2 + 2147483647` wraps to
`-2147483647`, passes both the window check and the guard `pos < len`, and the
read of `changeLists[pos-1]` is out of range: the merge loop panics. -/
theorem merge_panics_on_wrapped_position :
    (∀ sv ∈ ([⟨2, 0⟩, ⟨2147483647, 12⟩] : List Status), 1 ≤ sv.Count)
      ∧ wrap32 (2 + 2147483647) = -2147483647
      ∧ attribution "job" (some ["rev1"]) (-2147483647) = none
      ∧ merge 5 [("job", ⟨5, [⟨"t", [⟨2, 0⟩, ⟨2147483647, 12⟩], []⟩], "", some ["rev1"]⟩)]
          = none := by
  refine ⟨by decide, by decide, by decide, ?_⟩
  rw [← Option.isNone_iff_eq_none]
  decide

/-! ## The local ingestion -/

theorem ingest_foldl (l : List Testcase) :
    ∀ (jobs : JobResult),
      l.foldl ingestTestcase jobs = { jobs with Tests := jobs.Tests ++ l.map ingestedTest } := by
  induction l with
  | nil => intro jobs; simp
  | cons t rest ih =>
    intro jobs
    rw [List.foldl_cons, ih]
    by_cases h : t.Failure.Text = "" <;>
      simp [ingestTestcase, ingestedTest, h, List.append_assoc]

/-- C5, at the failing input: the test case decoded from
`<testcase name="t"><failure message="boom"></failure></testcase>` carries a
failure marker, and the ingestion gives it the value 0 where the claim (and the
comment at main.go 331-332) says 12, because main.go 335 tests the text of the
failure element alone; the same case with failure text is given 12. -/
theorem ingest_ignores_textless_failure :
    carriesFailure testcaseWithEmptyFailureText = true
      ∧ testcaseWithEmptyFailureText ∈ suiteWithEmptyFailureText.Testcase
      ∧ (ingest 5 suiteWithEmptyFailureText).Tests
          = [{ Name := "t", Statuses := [{ Count := 1, Value := 0 }], ShortTexts := [] }]
      ∧ (ingest 5 { suiteWithEmptyFailureText with
            Testcase := [{ testcaseWithEmptyFailureText with
              Failure := { Text := "boom", Message := "boom" } }] }).Tests
          = [{ Name := "t", Statuses := [{ Count := 1, Value := TestStatus_value_FAIL }],
               ShortTexts := [] }] := by
  decide

/-- What the ingestion loop computes as the code stands, for every decoded
document and every depth: `Depth` is the configured depth, `ChangeLists` is
nil, and there is one `Test` per test case in document order, with the case's
name and one `Status` of `Count` 1; its `Value` follows the text of the failure
element, 12 when that text is not empty and 0 when it is empty. -/
theorem ingest_computes (depth : Int) (junitTests : Testsuite) :
    (ingest depth junitTests).Depth = depth
      ∧ (ingest depth junitTests).ChangeLists = none
      ∧ (ingest depth junitTests).Tests = junitTests.Testcase.map ingestedTest
      ∧ (ingest depth junitTests).Tests.length = junitTests.Testcase.length
      ∧ ∀ (i : Nat) (t : Testcase), junitTests.Testcase.get? i = some t →
          ∃ value : Int,
            (ingest depth junitTests).Tests.get? i
                = some { Name := t.Name, Statuses := [{ Count := 1, Value := value }],
                         ShortTexts := [] }
              ∧ (t.Failure.Text ≠ "" → value = TestStatus_value_FAIL)
              ∧ (t.Failure.Text = "" → value = 0) := by
  have h : ingest depth junitTests
      = { Depth := depth, Tests := junitTests.Testcase.map ingestedTest, Query := "",
          ChangeLists := none } := by
    unfold ingest
    rw [ingest_foldl]
    simp
  rw [h]
  refine ⟨rfl, rfl, rfl, by simp, ?_⟩
  intro i t ht
  refine ⟨if t.Failure.Text ≠ "" then 12 else 0, ?_, ?_, ?_⟩
  · simp [List.get?_eq_getElem?, List.getElem?_map] at ht ⊢
    simp [ht, ingestedTest]
  · intro hne; simp [hne, TestStatus_value_FAIL]
  · intro he; simp [he]

/-! ## Lemmas on the flag printer and parser -/

theorem splitChars_of_not_mem (sep : Char) (l : List Char) (h : sep ∉ l) :
    splitChars sep l = [l] := by
  induction l with
  | nil => rfl
  | cons c cs ih =>
    have hc : c ≠ sep := fun e => h (by simp [e])
    have hcs : sep ∉ cs := fun e => h (List.mem_cons_of_mem _ e)
    simp [splitChars, hc, ih hcs]

theorem splitChars_append_sep (sep : Char) (l rest : List Char) (h : sep ∉ l) :
    splitChars sep (l ++ sep :: rest) = l :: splitChars sep rest := by
  induction l with
  | nil => simp [splitChars]
  | cons c cs ih =>
    have hc : c ≠ sep := fun e => h (by simp [e])
    have hcs : sep ∉ cs := fun e => h (List.mem_cons_of_mem _ e)
    simp [splitChars, hc, ih hcs]

/-- Splitting what `Join` built gives the elements back, when the list is not
empty and no element contains the separator. -/
theorem Split_Join (c : Char) (sep : String) (hsep : sep.data = [c]) (l : List String) :
    l ≠ [] → (∀ x ∈ l, c ∉ x.data) → Split (Join l sep) c = l := by
  induction l with
  | nil => intro h; exact absurd rfl h
  | cons a rest ih =>
    intro _ hx
    cases rest with
    | nil =>
      have ha : c ∉ a.data := hx a (List.mem_cons_self _ _)
      simp [Split, Join, splitChars_of_not_mem c a.data ha]
    | cons b rest =>
      have ha : c ∉ a.data := hx a (List.mem_cons_self _ _)
      have ih' := ih (by simp) (fun x h => hx x (List.mem_cons_of_mem _ h))
      unfold Split at ih' ⊢
      simp only [Join, String.data_append, hsep, List.append_assoc, List.singleton_append]
      rw [splitChars_append_sep c a.data _ ha, List.map_cons, ih']

theorem not_mem_Join (c : Char) (sep : String) (hsep : c ∉ sep.data) (l : List String) :
    (∀ x ∈ l, c ∉ x.data) → c ∉ (Join l sep).data := by
  induction l with
  | nil => intro _; simp [Join]
  | cons a rest ih =>
    intro hx
    cases rest with
    | nil => simpa [Join] using hx a (List.mem_cons_self _ _)
    | cons b rest =>
      have ha : c ∉ a.data := hx a (List.mem_cons_self _ _)
      have ih' := ih (fun x h => hx x (List.mem_cons_of_mem _ h))
      simp only [Join, String.data_append, List.mem_append, not_or]
      exact ⟨⟨ha, hsep⟩, ih'⟩

theorem Split_entry (d : String) (j : List String) (hd : separatorFree d)
    (hj : ∀ x ∈ j, separatorFree x) :
    Split (d ++ "=" ++ Join j ",") '=' = [d, Join j ","] := by
  have h1 : '=' ∉ (Join j ",").data :=
    not_mem_Join '=' "," (by decide) j (fun x hx => (hj x hx).2.1)
  unfold Split
  simp only [String.data_append, List.append_assoc]
  rw [List.singleton_append, splitChars_append_sep '=' d.data _ hd.2.1,
    splitChars_of_not_mem '=' _ h1]
  rfl

theorem entry_colon_free (d : String) (j : List String) (hd : separatorFree d)
    (hj : ∀ x ∈ j, separatorFree x) : ':' ∉ (d ++ "=" ++ Join j ",").data := by
  have h1 : ':' ∉ (Join j ",").data :=
    not_mem_Join ':' "," (by decide) j (fun x hx => (hj x hx).1)
  have h2 : ':' ∉ ("=" : String).data := by decide
  simp only [String.data_append, List.mem_append, not_or]
  exact ⟨⟨hd.1, h2⟩, h1⟩

/-- The loop of `init` over the printed entries of a selection with distinct
dashboards, separator-free names and no empty job list: it does not exit, and
the map it leaves holds each dashboard of the selection with its jobs, the
other keys as before. -/
theorem parseDashboards_entries (sel : List (String × List String)) :
    ∀ (m : DashboardJobs), (sel.map Prod.fst).Nodup →
      (∀ dj ∈ sel, separatorFree dj.1 ∧ ∀ x ∈ dj.2, separatorFree x) →
      (∀ dj ∈ sel, dj.2 ≠ []) →
      ∃ f : DashboardJobs,
        parseDashboards (sel.map (fun dj => dj.1 ++ "=" ++ Join dj.2 ",")) m = some f
          ∧ ∀ k, f k = (match selectionJobs sel k with
                        | some j => some j
                        | none => m k) := by
  induction sel with
  | nil => intro m _ _ _; exact ⟨m, rfl, fun k => rfl⟩
  | cons dj rest ih =>
    intro m hnd hfree hne
    have hdj := hfree dj (List.mem_cons_self _ _)
    have hsplit := Split_entry dj.1 dj.2 hdj.1 hdj.2
    have hjobs : Split (Join dj.2 ",") ',' = dj.2 :=
      Split_Join ',' "," rfl dj.2 (hne dj (List.mem_cons_self _ _)) (fun x hx => (hdj.2 x hx).2.2)
    rw [List.map_cons, List.nodup_cons] at hnd
    obtain ⟨f, hf, hfk⟩ := ih (fun k => if k = dj.1 then some (Split (Join dj.2 ",") ',') else m k)
      hnd.2 (fun x hx => hfree x (List.mem_cons_of_mem _ hx))
      (fun x hx => hne x (List.mem_cons_of_mem _ hx))
    refine ⟨f, ?_, ?_⟩
    · simp only [List.map_cons, parseDashboards, hsplit]
      exact hf
    · intro k
      rw [hfk k]
      by_cases hk : dj.1 = k
      · have hnone : selectionJobs rest k = none := by
          unfold selectionJobs
          rw [Option.map_eq_none', List.find?_eq_none]
          intro x hx hxk
          apply hnd.1
          rw [hk]
          exact List.mem_map.2 ⟨x, hx, by simpa using hxk⟩
        have hcons : selectionJobs (dj :: rest) k = some dj.2 := by
          simp [selectionJobs, List.find?_cons, hk]
        rw [hcons, hnone]
        simp [hk.symm, hjobs]
      · have hk' : ¬ k = dj.1 := fun e => hk e.symm
        have hcons : selectionJobs (dj :: rest) k = selectionJobs rest k := by
          simp [selectionJobs, List.find?_cons, hk]
        rw [hcons]
        simp [hk']

/-- Round trip of the flag syntax where it holds: for a selection with
distinct dashboards, names free of ':', '=' and ',' and at least one job for
every dashboard, parsing the printed argument does not exit and yields the
selection. -/
theorem parse_flagArg (sel : List (String × List String))
    (hnd : (sel.map Prod.fst).Nodup)
    (hfree : ∀ dj ∈ sel, separatorFree dj.1 ∧ ∀ x ∈ dj.2, separatorFree x)
    (hne : ∀ dj ∈ sel, dj.2 ≠ []) :
    ∃ f : DashboardJobs,
      parseDashboardJobs (flagArg sel) = some f ∧ ∀ k, f k = selectionJobs sel k := by
  cases hsel : sel with
  | nil => exact ⟨fun _ => none, by simp [parseDashboardJobs, flagArg, Join], fun k => rfl⟩
  | cons dj rest =>
    rw [← hsel]
    have hentries : ∀ x ∈ sel.map (fun dj => dj.1 ++ "=" ++ Join dj.2 ","), ':' ∉ x.data := by
      intro x hx
      rcases List.mem_map.1 hx with ⟨y, hy, rfl⟩
      exact entry_colon_free y.1 y.2 (hfree y hy).1 (hfree y hy).2
    have hsplit : Split (flagArg sel) ':' = sel.map (fun dj => dj.1 ++ "=" ++ Join dj.2 ",") :=
      Split_Join ':' ":" rfl _ (by simp [hsel]) hentries
    have hnonempty : flagArg sel ≠ "" := by
      intro he
      rw [he] at hsplit
      have h0 : Split "" ':' = [""] := by decide
      rw [h0, hsel, List.map_cons] at hsplit
      have h1 := (List.cons.inj hsplit).1
      have h2 := congrArg String.data h1
      simp at h2
    obtain ⟨f, hf, hfk⟩ := parseDashboards_entries sel (fun _ => none) hnd hfree hne
    refine ⟨f, ?_, ?_⟩
    · unfold parseDashboardJobs
      rw [if_pos hnonempty, hsplit]
      exact hf
    · intro k
      rw [hfk k]
      cases selectionJobs sel k <;> rfl

/-- The round trip at a selection of two dashboards. -/
theorem parse_flagArg_witness :
    ∃ f : DashboardJobs,
      parseDashboardJobs "d=a,b:e=c" = some f
        ∧ ∀ k, f k = selectionJobs [("d", ["a", "b"]), ("e", ["c"])] k :=
  parse_flagArg [("d", ["a", "b"]), ("e", ["c"])] (by decide) (by decide) (by decide)

/-- C8, at the failing input: a dashboard selected with no job is printed as
`d=`, and parsing `d=` gives the dashboard the job list `[""]`, one job with
the empty name, where the selection had none. -/
theorem flagArg_empty_jobs_not_restored :
    selectionJobs [("d", [])] "d" = some []
      ∧ flagArg [("d", [])] = "d="
      ∧ (parseDashboardJobs (flagArg [("d", [])])).map (fun m => m "d") = some (some [""]) := by
  decide

/-! ## Claims on the style mapper -/

theorem fauxRandom_range (lib : Library) (hlib : lib.IntnInRange) (key : String) (modulus : Int)
    (hmod : 1 ≤ modulus) :
    ∃ r : Int, fauxRandom lib key modulus = some r ∧ 0 ≤ r ∧ r < modulus := by
  have hpos : ¬ modulus ≤ 0 := by omega
  simp only [fauxRandom]
  cases hx : SetString16
      (EncodeToString (lib.sha1Sum (key ++ "some_consistant_random_salt_string"))) with
  | none => exact ⟨0, rfl, le_refl 0, by omega⟩
  | some x =>
    refine ⟨lib.Intn (Int64 x) modulus, ?_, (hlib _ modulus (by omega)).1,
      (hlib _ modulus (by omega)).2⟩
    simp [hpos]

theorem indexTable_of_range (table : List String) (index : Int) (h0 : 0 ≤ index)
    (h1 : index < (table.length : Int)) : ∃ x ∈ table, indexTable table index = some x := by
  have hlt : index.toNat < table.length := by omega
  refine ⟨table.get ⟨index.toNat, hlt⟩, List.get_mem _ _ _, ?_⟩
  simp [indexTable, h0, h1, List.get?_eq_get hlt]

/-- C9: for every key and every modulus of at least one, `fauxRandom` returns
an integer `r` with `0 ≤ r < modulus` (the draw `Intn` obeying its documented
range), the result is determined by the key and the modulus, and
`colorFromString` and `emojiFromString` read their eight-element tables in
bounds, returning one of the table's entries. -/
theorem fauxRandom_in_range (lib : Library) (hlib : lib.IntnInRange) (key : String)
    (modulus : Int) (hmod : 1 ≤ modulus) :
    (∃ r : Int, fauxRandom lib key modulus = some r ∧ 0 ≤ r ∧ r < modulus)
      ∧ (∀ (key1 : String) (modulus1 : Int), key1 = key → modulus1 = modulus →
          fauxRandom lib key1 modulus1 = fauxRandom lib key modulus)
      ∧ colors.length = 8 ∧ emojis.length = 8
      ∧ (∃ c ∈ colors, colorFromString lib key = some c)
      ∧ (∃ e ∈ emojis, emojiFromString lib key = some e) := by
  refine ⟨fauxRandom_range lib hlib key modulus hmod, ?_, rfl, rfl, ?_, ?_⟩
  · intro key1 modulus1 h1 h2
    rw [h1, h2]
  · unfold colorFromString
    cases Split key '/' with
    | nil => exact ⟨"primary", by decide, rfl⟩
    | cons c0 rest =>
      obtain ⟨r, hr, h0, h1⟩ := fauxRandom_range lib hlib c0 (colors.length : Int) (by decide)
      simp only [hr]
      exact indexTable_of_range colors r h0 h1
  · unfold emojiFromString
    cases Split key '/' with
    | nil => exact ⟨":grimacing:", by decide, rfl⟩
    | cons c0 rest =>
      obtain ⟨r, hr, h0, h1⟩ := fauxRandom_range lib hlib c0 (emojis.length : Int) (by decide)
      simp only [hr]
      exact indexTable_of_range emojis r h0 h1

theorem sampleLibrary_IntnInRange : sampleLibrary.IntnInRange := by
  intro seed n hn
  exact ⟨Int.emod_nonneg _ (by omega), Int.emod_lt_of_pos _ hn⟩

/-- C9 at the key `"job/rev"` and the modulus 8, with the stand-in library. -/
theorem fauxRandom_in_range_witness :
    (1 : Int) ≤ 8
      ∧ (∃ r : Int, fauxRandom sampleLibrary "job/rev" 8 = some r ∧ 0 ≤ r ∧ r < 8)
      ∧ (∃ c ∈ colors, colorFromString sampleLibrary "job/rev" = some c) :=
  ⟨by decide,
   (fauxRandom_in_range sampleLibrary sampleLibrary_IntnInRange "job/rev" 8 (by decide)).1,
   (fauxRandom_in_range sampleLibrary sampleLibrary_IntnInRange "job/rev" 8 (by decide)).2.2.2.2.1⟩

/-! ## Lemmas on the selector -/

theorem HasPrefix_mark_append (c : String) : HasPrefix (markPrefix ++ c) markPrefix = true := by
  unfold HasPrefix
  rw [String.data_append, List.isPrefixOf_iff_prefix]
  exact List.prefix_append _ _

theorem TrimPrefix_mark_append (c : String) : TrimPrefix (markPrefix ++ c) markPrefix = c := by
  unfold TrimPrefix
  rw [if_pos (HasPrefix_mark_append c), String.data_append, List.drop_left]

/-- Once no cell from `i` on holds `current`, the rest of the range loop
changes nothing. -/
theorem removeLoop_of_not_mem (current : String) :
    ∀ (todo i : Nat) (backing : List String) (len : Nat),
      i + todo ≤ backing.length → current ∉ backing.drop i →
      removeLoop current todo i backing len = some (backing.take len) := by
  intro todo
  induction todo with
  | zero => intro i backing len _ _; rfl
  | succ todo ih =>
    intro i backing len hlen hmem
    have hi : i < backing.length := by omega
    have hne : backing.getD i "" ≠ current := by
      intro he
      apply hmem
      rw [← he, List.getD_eq_getElem _ _ hi]
      exact List.mem_drop_iff_getElem.2 ⟨0, by simpa using hi, by simp⟩
    have hmem' : current ∉ backing.drop (i + 1) := by
      intro h
      apply hmem
      rw [← List.drop_drop] at h
      exact List.mem_of_mem_drop h
    simp only [removeLoop, hne, if_false]
    exact ih (i + 1) backing len (by omega) hmem'

/-- The iterations over cells that do not hold `current` pass without effect. -/
theorem removeLoop_skip (current : String) :
    ∀ (m todo i : Nat) (backing : List String) (len : Nat),
      (∀ j, i ≤ j → j < i + m → backing.getD j "" ≠ current) →
      removeLoop current (m + todo) i backing len = removeLoop current todo (i + m) backing len := by
  intro m
  induction m with
  | zero => intro todo i backing len _; simp
  | succ m ih =>
    intro todo i backing len h
    have hne : backing.getD i "" ≠ current := h i (le_refl i) (by omega)
    have : m + 1 + todo = (m + todo) + 1 := by omega
    rw [this]
    simp only [removeLoop, hne, if_false]
    rw [ih todo (i + 1) backing len (fun j h1 h2 => h j (by omega) (by omega))]
    congr 1
    omega

theorem removeThing_of_not_mem (sel : List String) (current : String) (h : current ∉ sel) :
    removeThing sel current = some sel := by
  unfold removeThing
  rw [removeLoop_of_not_mem current sel.length 0 sel sel.length (by omega) (by simpa using h)]
  simp

/-- Removing an item that occurs exactly once: the range loop passes the cells
before it, shifts the cells after it one place down, and finds no further
match, the stale last cell included. -/
theorem removeThing_split (A B : List String) (c : String) (hA : c ∉ A) (hB : c ∉ B) :
    removeThing (A ++ c :: B) c = some (A ++ B) := by
  unfold removeThing
  have hlen : (A ++ c :: B).length = A.length + (1 + B.length) := by
    simp [List.length_append]; omega
  rw [hlen]
  have hskip := removeLoop_skip c A.length (1 + B.length) 0 (A ++ c :: B)
    (A.length + (1 + B.length)) (by
      intro j _ hj
      have hj' : j < A.length := by omega
      rw [List.getD_eq_getElem _ _ (by rw [hlen]; omega), List.getElem_append_left hj']
      intro he
      exact hA (he ▸ List.getElem_mem _))
  rw [hskip]
  have h1 : 1 + B.length = B.length + 1 := by omega
  rw [h1]
  have hget : (A ++ c :: B).getD (0 + A.length) "" = c := by
    rw [Nat.zero_add, List.getD_eq_getElem _ _ (by rw [hlen]; omega),
      List.getElem_append_right (le_refl _)]
    simp
  have hrem : removeAt (A ++ c :: B) (A.length + (B.length + 1)) (0 + A.length)
      = some (A ++ B ++ (A ++ c :: B).drop (A.length + B.length), A.length + B.length) := by
    unfold removeAt
    rw [if_pos (by omega)]
    have e1 : (A ++ c :: B).take (0 + A.length) = A := by simp
    have e2 : ((A ++ c :: B).drop (0 + A.length + 1)).take
        (A.length + (B.length + 1) - (0 + A.length + 1)) = B := by
      have : (A ++ c :: B).drop (0 + A.length + 1) = B := by
        rw [Nat.zero_add, ← List.drop_drop]
        simp
      rw [this]
      apply List.take_of_length_le
      omega
    have e3 : A.length + (B.length + 1) - 1 = A.length + B.length := by omega
    rw [e1, e2, e3]
  simp only [removeLoop, hget, if_true, hrem]
  have hdrop : c ∉ (A ++ B ++ (A ++ c :: B).drop (A.length + B.length)).drop (0 + A.length + 1) := by
    cases B with
    | nil => simp
    | cons b B' =>
      intro hmem
      have hsub : (A ++ c :: b :: B').drop (A.length + (b :: B').length)
          = (b :: B').drop B'.length := by
        have : A.length + (b :: B').length = A.length + (1 + B'.length) := by
          simp; omega
        rw [this, ← List.drop_drop, List.drop_left, ← List.drop_drop]
        simp
      rw [hsub] at hmem
      have h2 := List.mem_of_mem_drop hmem
      rw [List.append_assoc, List.mem_append] at h2
      rcases h2 with h2 | h2
      · exact hA h2
      · rw [List.mem_append] at h2
        rcases h2 with h2 | h2
        · exact hB h2
        · exact hB (List.mem_of_mem_drop h2)
  rw [removeLoop_of_not_mem c B.length (0 + A.length + 1) _ (A.length + B.length) (by
    simp [List.length_append]; omega) hdrop]
  congr 1
  rw [List.take_append_eq_append_take]
  simp [List.length_append]

/-! ### Toggle traces -/

theorem mem_lastToggleOrder (t : List Nat) (x : Nat) : x ∈ lastToggleOrder t ↔ x ∈ t := by
  induction t with
  | nil => simp [lastToggleOrder]
  | cons k rest ih =>
    by_cases hk : k ∈ rest
    · simp only [lastToggleOrder, hk, if_true, ih, List.mem_cons]
      constructor
      · intro h; exact Or.inr h
      · intro h
        rcases h with h | h
        · rw [h]; exact hk
        · exact h
    · simp [lastToggleOrder, hk, ih]

theorem nodup_lastToggleOrder (t : List Nat) : (lastToggleOrder t).Nodup := by
  induction t with
  | nil => simp [lastToggleOrder]
  | cons k rest ih =>
    by_cases hk : k ∈ rest
    · simpa [lastToggleOrder, hk] using ih
    · simp only [lastToggleOrder, hk, if_false, List.nodup_cons]
      exact ⟨fun h => hk ((mem_lastToggleOrder rest k).1 h), ih⟩

theorem lastToggleOrder_snoc (t : List Nat) (k : Nat) :
    lastToggleOrder (t ++ [k]) = (lastToggleOrder t).filter (fun x => decide (x ≠ k)) ++ [k] := by
  induction t with
  | nil => simp [lastToggleOrder]
  | cons x rest ih =>
    by_cases hxk : x = k
    · subst hxk
      by_cases hx : x ∈ rest
      · simp [lastToggleOrder, hx, ih]
      · simp [lastToggleOrder, hx, ih]
    · by_cases hx : x ∈ rest
      · simp [lastToggleOrder, hx, ih, hxk]
      · simp [lastToggleOrder, hx, ih, hxk]

theorem toggledOn_snoc_self (t : List Nat) (k : Nat) :
    toggledOn (t ++ [k]) k = !toggledOn t k := by
  unfold toggledOn
  simp only [List.count_append, List.count_singleton_self]
  by_cases h : List.count k t % 2 = 1
  · have : ¬ (List.count k t + 1) % 2 = 1 := by omega
    simp [h, this]
  · have : (List.count k t + 1) % 2 = 1 := by omega
    simp [h, this]

theorem toggledOn_snoc_ne (t : List Nat) (k x : Nat) (h : x ≠ k) :
    toggledOn (t ++ [k]) x = toggledOn t x := by
  unfold toggledOn
  have : List.count x [k] = 0 := List.count_eq_zero.2 (by simpa using h)
  simp [List.count_append, this]

theorem toggledOn_mem (t : List Nat) (k : Nat) (h : toggledOn t k = true) : k ∈ t := by
  unfold toggledOn at h
  by_contra hk
  have : List.count k t = 0 := List.count_eq_zero.2 hk
  simp [this] at h

theorem mem_selectedRows (t : List Nat) (k : Nat) :
    k ∈ selectedRows t ↔ toggledOn t k = true := by
  unfold selectedRows
  rw [List.mem_filter, mem_lastToggleOrder]
  exact ⟨fun h => h.2, fun h => ⟨toggledOn_mem t k h, h⟩⟩

theorem nodup_selectedRows (t : List Nat) : (selectedRows t).Nodup :=
  (nodup_lastToggleOrder t).filter _

/-- A toggle on a row that is on takes it out of the selection, a toggle on a
row that is off puts it last. -/
theorem selectedRows_snoc (t : List Nat) (k : Nat) :
    selectedRows (t ++ [k])
      = if toggledOn t k then (selectedRows t).filter (fun x => decide (x ≠ k))
        else selectedRows t ++ [k] := by
  have hfilter : ((lastToggleOrder t).filter (fun x => decide (x ≠ k))).filter
      (toggledOn (t ++ [k])) = (selectedRows t).filter (fun x => decide (x ≠ k)) := by
    unfold selectedRows
    rw [List.filter_filter, List.filter_filter]
    apply List.filter_congr
    intro x _
    by_cases hx : x = k
    · simp [hx]
    · simp [hx, toggledOn_snoc_ne t k x hx]
  unfold selectedRows at hfilter ⊢
  rw [lastToggleOrder_snoc, List.filter_append, hfilter]
  by_cases hon : toggledOn t k = true
  · simp [List.filter_cons, toggledOn_snoc_self, hon]
  · have hoff : toggledOn t k = false := by simpa using hon
    have hself : List.filter (fun x => decide (x ≠ k))
        (List.filter (toggledOn t) (lastToggleOrder t))
        = List.filter (toggledOn t) (lastToggleOrder t) := by
      rw [List.filter_eq_self]
      intro a ha
      have := (List.mem_filter.1 ha).2
      have hne : a ≠ k := by
        intro e
        rw [e, hoff] at this
        exact Bool.noConfusion this
      simpa using hne
    rw [hself]
    simp [List.filter_cons, toggledOn_snoc_self, hoff]

/-! ### The invariant of the event loop -/

theorem thingAt_eq_getElem (things : List String) (k : Nat) (hk : k < things.length) :
    thingAt things k = things[k] := by
  unfold thingAt
  exact List.getD_eq_getElem _ _ hk

theorem thingAt_inj (things : List String) (hnd : things.Nodup) (i j : Nat)
    (hi : i < things.length) (hj : j < things.length)
    (h : thingAt things i = thingAt things j) : i = j := by
  rw [thingAt_eq_getElem things i hi, thingAt_eq_getElem things j hj] at h
  exact (hnd.getElem_inj_iff).1 h

theorem thingAt_mem (things : List String) (k : Nat) (hk : k < things.length) :
    thingAt things k ∈ things := by
  rw [thingAt_eq_getElem things k hk]
  exact List.getElem_mem _

theorem LoopInvariant.rows_length {things : List String} {t : List Nat} {s : Selector}
    (h : LoopInvariant things t s) : s.l.Rows.length = things.length := by
  have h1 := h.rows_eq s.l.Rows.length
  have h2 := h.rows_eq things.length
  rw [List.getElem?_eq_none (le_refl _)] at h1
  rw [List.getElem?_eq_none (le_refl things.length)] at h2
  have h1' : things[s.l.Rows.length]? = none := by
    cases hx : things[s.l.Rows.length]? with
    | none => rfl
    | some x => rw [hx] at h1; simp at h1
  have h2' : s.l.Rows[things.length]? = none := by simpa using h2
  have a := List.getElem?_eq_none_iff.1 h1'
  have b := List.getElem?_eq_none_iff.1 h2'
  omega

theorem LoopInvariant.row_at {things : List String} {t : List Nat} {s : Selector}
    (h : LoopInvariant things t s) (k : Nat) (hk : k < things.length) :
    s.l.Rows[k]? = some (if toggledOn t k then markPrefix ++ thingAt things k
      else thingAt things k) := by
  rw [h.rows_eq k, List.getElem?_eq_getElem hk, thingAt_eq_getElem things k hk]
  rfl

theorem LoopInvariant.current_eq {things : List String} {t : List Nat} {s : Selector}
    (h : LoopInvariant things t s) :
    s.l.current = some (if toggledOn t s.l.SelectedRow.toNat
      then markPrefix ++ thingAt things s.l.SelectedRow.toNat
      else thingAt things s.l.SelectedRow.toNat) := by
  have hlo := h.highlight_lo
  have hhi := h.highlight_hi
  have hlen := h.rows_length
  have hk : s.l.SelectedRow.toNat < things.length := by omega
  unfold ListWidget.current
  rw [if_pos ⟨hlo, by omega⟩, List.get?_eq_getElem?]
  exact h.row_at _ hk

theorem noMark_thingAt (things : List String) (hnm : noMark things) (k : Nat)
    (hk : k < things.length) : HasPrefix (thingAt things k) markPrefix = false :=
  hnm _ (thingAt_mem things k hk)

/-- The toggle case keeps the invariant, the highlighted row being added to
the trace; it does not panic and leaves the highlight where it is. -/
theorem toggle_invariant (things : List String) (hnd : things.Nodup) (hnm : noMark things)
    (t : List Nat) (s : Selector) (h : LoopInvariant things t s) :
    ∃ s1, toggle s = some s1 ∧ LoopInvariant things (t ++ [s.l.SelectedRow.toNat]) s1 := by
  have hlo := h.highlight_lo
  have hhi := h.highlight_hi
  have hlen := h.rows_length
  have hk : s.l.SelectedRow.toNat < things.length := by omega
  have hvalid : ∀ x ∈ t ++ [s.l.SelectedRow.toNat], x < things.length := by
    intro x hx
    rcases List.mem_append.1 hx with hx | hx
    · exact h.trace_valid x hx
    · simp at hx; omega
  have hrows : ∀ (v : String) (b : Bool), toggledOn (t ++ [s.l.SelectedRow.toNat])
        s.l.SelectedRow.toNat = b →
      v = (if b then markPrefix ++ thingAt things s.l.SelectedRow.toNat
        else thingAt things s.l.SelectedRow.toNat) →
      ∀ j : Nat, (s.l.Rows.set s.l.SelectedRow.toNat v)[j]? =
        things[j]?.map (fun x =>
          if toggledOn (t ++ [s.l.SelectedRow.toNat]) j then markPrefix ++ x else x) := by
    intro v b hon hv j
    rw [List.getElem?_set]
    by_cases hj : s.l.SelectedRow.toNat = j
    · subst hj
      rw [if_pos rfl, if_pos (by omega), List.getElem?_eq_getElem hk, hon, hv,
        thingAt_eq_getElem things _ hk]
      cases b <;> rfl
    · rw [if_neg hj, h.rows_eq j, toggledOn_snoc_ne t _ j (fun e => hj e.symm)]
  have hcur := h.current_eq
  unfold toggle
  by_cases hon : toggledOn t s.l.SelectedRow.toNat = true
  · -- the row is marked: the mark is trimmed and the candidate removed
    rw [if_pos hon] at hcur
    rw [hcur]
    simp only [HasPrefix_mark_append, if_true, TrimPrefix_mark_append]
    have hmem : s.l.SelectedRow.toNat ∈ selectedRows t := (mem_selectedRows t _).2 hon
    obtain ⟨A, B, hAB⟩ := List.append_of_mem hmem
    have hndAB : (A ++ s.l.SelectedRow.toNat :: B).Nodup := hAB ▸ nodup_selectedRows t
    have hkA : s.l.SelectedRow.toNat ∉ A := by
      intro hA
      have := List.nodup_append.1 hndAB
      exact this.2.2 hA (List.mem_cons_self _ _)
    have hkB : s.l.SelectedRow.toNat ∉ B := by
      have := (List.nodup_append.1 hndAB).2.1
      exact (List.nodup_cons.1 this).1
    have hsubset : ∀ a, a ∈ A ∨ a ∈ B → a < things.length := by
      intro a ha
      apply h.trace_valid
      apply toggledOn_mem
      apply (mem_selectedRows t a).1
      rw [hAB]
      rcases ha with ha | ha
      · exact List.mem_append_left _ ha
      · exact List.mem_append_right _ (List.mem_cons_of_mem _ ha)
    have hnotA : thingAt things s.l.SelectedRow.toNat ∉ A.map (thingAt things) := by
      intro hm
      rcases List.mem_map.1 hm with ⟨a, ha, hae⟩
      have := thingAt_inj things hnd a _ (hsubset a (Or.inl ha)) hk hae
      exact hkA (this ▸ ha)
    have hnotB : thingAt things s.l.SelectedRow.toNat ∉ B.map (thingAt things) := by
      intro hm
      rcases List.mem_map.1 hm with ⟨a, ha, hae⟩
      have := thingAt_inj things hnd a _ (hsubset a (Or.inr ha)) hk hae
      exact hkB (this ▸ ha)
    have hsel : s.selectedThings = A.map (thingAt things)
        ++ thingAt things s.l.SelectedRow.toNat :: B.map (thingAt things) := by
      rw [h.selected_eq, hAB, List.map_append, List.map_cons]
    have hremove := removeThing_split _ _ _ hnotA hnotB
    rw [← hsel] at hremove
    simp only [hremove]
    refine ⟨_, rfl, ?_⟩
    constructor
    · exact hlo
    · exact hhi
    · exact hrows _ false (by rw [toggledOn_snoc_self, hon]; rfl) rfl
    · show A.map (thingAt things) ++ B.map (thingAt things) = _
      rw [selectedRows_snoc, if_pos hon, hAB, List.filter_append, List.filter_cons]
      have fA : A.filter (fun x => decide (x ≠ s.l.SelectedRow.toNat)) = A := by
        rw [List.filter_eq_self]
        intro a ha
        have : a ≠ s.l.SelectedRow.toNat := fun e => hkA (e ▸ ha)
        simpa using this
      have fB : B.filter (fun x => decide (x ≠ s.l.SelectedRow.toNat)) = B := by
        rw [List.filter_eq_self]
        intro a ha
        have : a ≠ s.l.SelectedRow.toNat := fun e => hkB (e ▸ ha)
        simpa using this
      rw [fA, fB]
      simp
    · exact hvalid
  · -- the row is unmarked: the candidate is appended and the row marked
    have hoff : toggledOn t s.l.SelectedRow.toNat = false := by simpa using hon
    rw [if_neg hon] at hcur
    rw [hcur]
    simp only [noMark_thingAt things hnm _ hk, Bool.false_eq_true, if_false]
    refine ⟨_, rfl, ?_⟩
    constructor
    · exact hlo
    · exact hhi
    · exact hrows _ true (by rw [toggledOn_snoc_self, hoff]; rfl) rfl
    · show s.selectedThings ++ [thingAt things s.l.SelectedRow.toNat] = _
      rw [selectedRows_snoc, hoff, h.selected_eq]
      simp
    · exact hvalid

theorem moveDown_invariant (things : List String) (t : List Nat) (s : Selector)
    (h : LoopInvariant things t s) : LoopInvariant things t (moveDown s) := by
  have hlo := h.highlight_lo
  have hhi := h.highlight_hi
  have hlen := h.rows_length
  unfold moveDown
  by_cases hlast : s.l.SelectedRow = (s.l.Rows.length : Int) - 1
  · rw [if_pos hlast]
    exact ⟨le_refl 0, by simp only [ListWidget.ScrollTop]; omega, h.rows_eq, h.selected_eq,
      h.trace_valid⟩
  · rw [if_neg hlast]
    have h1 : ¬ (s.l.Rows.length : Int) - s.l.SelectedRow ≤ 1 := by omega
    have h2 : ¬ s.l.SelectedRow + 1 < 0 := by omega
    have hrow : (s.l.ScrollDown).SelectedRow = s.l.SelectedRow + 1 := by
      simp [ListWidget.ScrollDown, ListWidget.ScrollAmount, h1, h2]
    have hrows : (s.l.ScrollDown).Rows = s.l.Rows := by
      simp [ListWidget.ScrollDown, ListWidget.ScrollAmount, h1, h2]
    refine ⟨?_, ?_, ?_, h.selected_eq, h.trace_valid⟩
    · show 0 ≤ (s.l.ScrollDown).SelectedRow
      omega
    · show (s.l.ScrollDown).SelectedRow < _
      omega
    · intro k
      show (s.l.ScrollDown).Rows[k]? = _
      rw [hrows]
      exact h.rows_eq k

theorem moveUp_invariant (things : List String) (t : List Nat) (s : Selector)
    (h : LoopInvariant things t s) : LoopInvariant things t (moveUp s) := by
  have hlo := h.highlight_lo
  have hhi := h.highlight_hi
  have hlen := h.rows_length
  unfold moveUp
  by_cases hfirst : s.l.SelectedRow = 0
  · rw [if_pos hfirst]
    refine ⟨?_, ?_, h.rows_eq, h.selected_eq, h.trace_valid⟩
    · show 0 ≤ (s.l.Rows.length : Int) - 1
      omega
    · show (s.l.Rows.length : Int) - 1 < _
      omega
  · rw [if_neg hfirst]
    have h1 : ¬ (s.l.Rows.length : Int) - s.l.SelectedRow ≤ -1 := by omega
    have h2 : ¬ s.l.SelectedRow + -1 < 0 := by omega
    have hrow : (s.l.ScrollUp).SelectedRow = s.l.SelectedRow + -1 := by
      simp [ListWidget.ScrollUp, ListWidget.ScrollAmount, h1, h2]
    have hrows : (s.l.ScrollUp).Rows = s.l.Rows := by
      simp [ListWidget.ScrollUp, ListWidget.ScrollAmount, h1, h2]
    refine ⟨?_, ?_, ?_, h.selected_eq, h.trace_valid⟩
    · show 0 ≤ (s.l.ScrollUp).SelectedRow
      omega
    · show (s.l.ScrollUp).SelectedRow < _
      omega
    · intro k
      show (s.l.ScrollUp).Rows[k]? = _
      rw [hrows]
      exact h.rows_eq k

/-- One pass of the loop on an event other than Quit and Confirm: the loop
goes on, without a panic, and the invariant holds for the trace extended by
the highlighted row when the event is a toggle. -/
theorem step_invariant (things : List String) (hnd : things.Nodup) (hnm : noMark things)
    (t : List Nat) (s : Selector) (h : LoopInvariant things t s) (id : String)
    (hid : keepsLooping id) :
    ∃ s1, step s id = Step.next s1
      ∧ LoopInvariant things
          (t ++ if isToggle id then [s.l.SelectedRow.toNat] else []) s1 := by
  obtain ⟨hq, hc, he⟩ := hid
  unfold step
  have hquit : ¬ (id = "q" ∨ id = "<C-c>") := by
    intro h'; rcases h' with h' | h'
    · exact hq h'
    · exact hc h'
  rw [if_neg hquit]
  by_cases hdown : id = "j" ∨ id = "<Down>"
  · have hnt : isToggle id = false := by
      rcases hdown with h' | h' <;> subst h' <;> decide
    rw [if_pos hdown, hnt]
    exact ⟨_, rfl, by simpa using moveDown_invariant things t s h⟩
  · rw [if_neg hdown]
    by_cases hup : id = "k" ∨ id = "<Up>"
    · have hnt : isToggle id = false := by
        rcases hup with h' | h' <;> subst h' <;> decide
      rw [if_pos hup, hnt]
      exact ⟨_, rfl, by simpa using moveUp_invariant things t s h⟩
    · rw [if_neg hup]
      by_cases htog : id = "<Tab>" ∨ id = "<Space>"
      · have hyt : isToggle id = true := by
          unfold isToggle; exact decide_eq_true htog
        rw [if_pos htog, hyt]
        obtain ⟨s1, hs1, hinv⟩ := toggle_invariant things hnd hnm t s h
        rw [hs1]
        exact ⟨s1, rfl, hinv⟩
      · have hnt : isToggle id = false := by
          unfold isToggle; exact decide_eq_false htog
        rw [if_neg htog, if_neg he, hnt]
        exact ⟨s, rfl, by simpa using h⟩

/-- The event loop fed events other than Quit and Confirm: it consumes them
all without a panic and waits in a state where the invariant holds for the
toggles made. -/
theorem eventLoop_invariant (things : List String) (hnd : things.Nodup) (hnm : noMark things)
    (events : List String) :
    ∀ (t : List Nat) (s : Selector), LoopInvariant things t s →
      (∀ e ∈ events, keepsLooping e) →
      ∃ s1, eventLoop s events = Outcome.waiting s1
        ∧ LoopInvariant things (t ++ toggleTrace s events) s1 := by
  induction events with
  | nil =>
    intro t s h _
    exact ⟨s, rfl, by simpa [toggleTrace] using h⟩
  | cons id rest ih =>
    intro t s h hev
    obtain ⟨s1, hstep, hinv⟩ :=
      step_invariant things hnd hnm t s h id (hev id (List.mem_cons_self _ _))
    obtain ⟨s2, hloop, hinv2⟩ := ih _ s1 hinv (fun e he => hev e (List.mem_cons_of_mem _ he))
    refine ⟨s2, ?_, ?_⟩
    · simp only [eventLoop, hstep]
      exact hloop
    · simp only [toggleTrace, hstep]
      by_cases htog : isToggle id = true
      · simpa [htog, List.append_assoc] using hinv2
      · have hnt : isToggle id = false := by simpa using htog
        simpa [hnt] using hinv2

theorem eventLoop_append (events rest : List String) :
    ∀ (s s1 : Selector), eventLoop s events = Outcome.waiting s1 →
      eventLoop s (events ++ rest) = eventLoop s1 rest := by
  induction events with
  | nil =>
    intro s s1 h
    simp only [eventLoop] at h
    cases h
    rfl
  | cons id tail ih =>
    intro s s1 h
    simp only [eventLoop, List.cons_append] at h ⊢
    cases hstep : step s id with
    | next s2 =>
      rw [hstep] at h
      simp only [] at h ⊢
      exact ih s2 s1 h
    | result sel quit => rw [hstep] at h; cases h
    | panic => rw [hstep] at h; cases h

theorem initial_invariant (things : List String) (hne : things ≠ []) :
    LoopInvariant things [] (initial things) := by
  refine ⟨le_refl 0, ?_, ?_, rfl, ?_⟩
  · show (0 : Int) < (things.length : Int)
    have : 0 < things.length := List.length_pos.2 hne
    omega
  · intro k
    show things[k]? = _
    cases things[k]? <;> simp [toggledOn]
  · intro k hk
    simp at hk

theorem selectThings_eq_eventLoop (things : List String) (hne : things ≠ [])
    (events : List String) : selectThings things events = eventLoop (initial things) events := by
  unfold selectThings
  have : ¬ things.length = 0 := by
    intro h; exact hne (List.length_eq_zero.1 h)
  rw [if_neg this]

/-- In a state of the invariant a row is on exactly when its candidate is in
the selected list. -/
theorem LoopInvariant.mem_selected_iff {things : List String} {t : List Nat} {s : Selector}
    (h : LoopInvariant things t s) (hnd : things.Nodup) (k : Nat) (hk : k < things.length) :
    thingAt things k ∈ s.selectedThings ↔ toggledOn t k = true := by
  rw [h.selected_eq, List.mem_map]
  constructor
  · rintro ⟨j, hj, hjk⟩
    have hjv : j < things.length := h.trace_valid j (toggledOn_mem t j ((mem_selectedRows t j).1 hj))
    have := thingAt_inj things hnd j k hjv hk hjk
    exact this ▸ (mem_selectedRows t j).1 hj
  · intro hon
    exact ⟨k, (mem_selectedRows t k).2 hon, rfl⟩

/-- A row of a state of the invariant carries the mark exactly when it is on. -/
theorem LoopInvariant.marked_iff {things : List String} {t : List Nat} {s : Selector}
    (h : LoopInvariant things t s) (hnm : noMark things) (k : Nat) (hk : k < things.length) :
    HasPrefix (s.l.Rows.getD k "") markPrefix = true ↔ toggledOn t k = true := by
  have hrow : s.l.Rows.getD k "" = (if toggledOn t k then markPrefix ++ thingAt things k
      else thingAt things k) := by
    rw [List.getD_eq_getElem?_getD, h.row_at k hk]
    rfl
  rw [hrow]
  by_cases hon : toggledOn t k = true
  · simp [hon, HasPrefix_mark_append]
  · simp [hon, noMark_thingAt things hnm k hk]

/-- Two toggles on a row whose text is unmarked and not in the selected list:
the first marks the row and appends its text, the second restores the state. -/
theorem toggle_toggle (s : Selector) (c : String) (hcur : s.l.current = some c)
    (hun : HasPrefix c markPrefix = false) (hnot : c ∉ s.selectedThings) :
    ∃ s1, toggle s = some s1 ∧ s1.l.current = some (markPrefix ++ c)
      ∧ s1.selectedThings = s.selectedThings ++ [c] ∧ toggle s1 = some s := by
  have hrange : 0 ≤ s.l.SelectedRow ∧ s.l.SelectedRow < (s.l.Rows.length : Int) := by
    by_contra hr
    simp [ListWidget.current, hr] at hcur
  have hget : s.l.Rows[s.l.SelectedRow.toNat]? = some c := by
    simpa [ListWidget.current, hrange, List.get?_eq_getElem?] using hcur
  have hk : s.l.SelectedRow.toNat < s.l.Rows.length := by omega
  have hcur1 : ({ s.l with Rows := s.l.Rows.set s.l.SelectedRow.toNat (markPrefix ++ c) } :
      ListWidget).current = some (markPrefix ++ c) := by
    simp [ListWidget.current, hrange, List.get?_eq_getElem?, List.getElem?_set, hk]
  refine ⟨{ l := { s.l with Rows := s.l.Rows.set s.l.SelectedRow.toNat (markPrefix ++ c) },
            selectedThings := s.selectedThings ++ [c] }, ?_, hcur1, rfl, ?_⟩
  · simp [toggle, hcur, hun]
  · have hremove : removeThing (s.selectedThings ++ [c]) c = some s.selectedThings := by
      have := removeThing_split s.selectedThings [] c hnot (by simp)
      simpa using this
    have hset : (s.l.Rows.set s.l.SelectedRow.toNat (markPrefix ++ c)).set
        s.l.SelectedRow.toNat c = s.l.Rows := by
      rw [List.set_set]
      apply List.ext_getElem?
      intro j
      rw [List.getElem?_set]
      by_cases hj : s.l.SelectedRow.toNat = j
      · subst hj; simp [hk, hget]
      · simp [hj]
    unfold toggle
    rw [hcur1]
    simp only [HasPrefix_mark_append, if_true, TrimPrefix_mark_append, hremove, hset]

/-! ## Claims on the selector -/

/-- C6, as stated, fails: for the one candidate `[✔](fg:green):x` a toggle
trims the mark the candidate itself begins with; the selected set is then
empty with the highlight on row 0, and Confirm returns `["x"]`, which is not
the candidate. -/
theorem confirm_returns_trimmed_row :
    selectThings ["[✔](fg:green):x"] ["<Space>"]
        = Outcome.waiting { l := { Rows := ["x"], SelectedRow := 0 }, selectedThings := [] }
      ∧ selectThings ["[✔](fg:green):x"] ["<Space>", "<Enter>"] = Outcome.returned ["x"] false
      ∧ (["[✔](fg:green):x"] : List String)[0]? ≠ some "x" := by
  decide

/-- C6, amended: for every non-empty candidate list whose entries are pairwise
distinct and none of which starts with the mark, and every sequence of events
other than Quit and Confirm (moves, toggles, ignored events): the loop consumes
the events and waits in a state `s`, and if the selected list is then empty,
Confirm returns the singleton of the original candidate of the highlighted row,
not cancelled. -/
theorem confirm_empty_selection (things events : List String) (hne : things ≠ [])
    (hnd : things.Nodup) (hnm : noMark things) (hev : ∀ e ∈ events, keepsLooping e) :
    ∃ s, selectThings things events = Outcome.waiting s
      ∧ (s.selectedThings = [] →
          ∃ (k : Nat) (c : String), s.l.SelectedRow = (k : Int) ∧ things[k]? = some c
            ∧ selectThings things (events ++ ["<Enter>"]) = Outcome.returned [c] false) := by
  obtain ⟨s, hloop, hinv⟩ :=
    eventLoop_invariant things hnd hnm events [] (initial things) (initial_invariant things hne) hev
  refine ⟨s, by rw [selectThings_eq_eventLoop things hne, hloop], ?_⟩
  intro hempty
  have hlo := hinv.highlight_lo
  have hhi := hinv.highlight_hi
  have hk : s.l.SelectedRow.toNat < things.length := by omega
  refine ⟨s.l.SelectedRow.toNat, thingAt things s.l.SelectedRow.toNat, by omega, ?_, ?_⟩
  · rw [List.getElem?_eq_getElem hk, thingAt_eq_getElem things _ hk]
  · have hoff : ¬ toggledOn ([] ++ toggleTrace (initial things) events) s.l.SelectedRow.toNat
        = true := by
      intro hon
      have := (hinv.mem_selected_iff hnd _ hk).2 hon
      rw [hempty] at this
      simp at this
    have hcur := hinv.current_eq
    rw [if_neg hoff] at hcur
    rw [selectThings_eq_eventLoop things hne, eventLoop_append events _ _ s hloop]
    simp [eventLoop, step, hempty, hcur]

/-- C6 amended, at the candidates `a, b, c` after a move down, a toggle on and
a toggle off: Confirm returns `["b"]`. -/
theorem confirm_empty_selection_witness :
    ∃ s, selectThings ["a", "b", "c"] ["j", "<Space>", "<Space>"] = Outcome.waiting s
      ∧ (s.selectedThings = [] →
          ∃ (k : Nat) (c : String), s.l.SelectedRow = (k : Int)
            ∧ (["a", "b", "c"] : List String)[k]? = some c
            ∧ selectThings ["a", "b", "c"] (["j", "<Space>", "<Space>"] ++ ["<Enter>"])
                = Outcome.returned [c] false) :=
  confirm_empty_selection ["a", "b", "c"] ["j", "<Space>", "<Space>"] (by decide) (by decide)
    (by decide) (by decide)

/-- C7, as stated, fails. With the candidates `a, a`, after a toggle on row 0
and a move down, row 1 is unselected and unmarked, and two toggles on it panic
in the removal loop. With the one candidate `[✔](fg:green):x`, never selected,
two toggles leave `x` in the selected list, which was empty. -/
theorem toggle_twice_fails :
    selectThings ["a", "a"] ["<Space>", "j"]
        = Outcome.waiting { l := { Rows := ["[✔](fg:green):a", "a"], SelectedRow := 1 },
                            selectedThings := ["a"] }
      ∧ selectThings ["a", "a"] ["<Space>", "j", "<Space>", "<Space>"] = Outcome.panicked
      ∧ selectThings ["[✔](fg:green):x"] []
        = Outcome.waiting { l := { Rows := ["[✔](fg:green):x"], SelectedRow := 0 },
                            selectedThings := [] }
      ∧ selectThings ["[✔](fg:green):x"] ["<Space>", "<Space>"]
        = Outcome.waiting { l := { Rows := ["[✔](fg:green):x"], SelectedRow := 0 },
                            selectedThings := ["x"] } := by
  decide

/-- C7, amended: for every non-empty candidate list whose entries are pairwise
distinct and none of which starts with the mark, and every state `s` the loop
reaches on events other than Quit and Confirm: when the highlighted row is
unmarked, its text is the candidate of the row, not in the selected list; the
first toggle marks the row and puts the candidate last in the selected list,
and the second returns the selector to the state `s` itself, so the row text,
the selected list and its order are as before. -/
theorem toggle_twice_restores (things events : List String) (hne : things ≠ [])
    (hnd : things.Nodup) (hnm : noMark things) (hev : ∀ e ∈ events, keepsLooping e) :
    ∃ s, selectThings things events = Outcome.waiting s
      ∧ ∀ row : String, s.l.current = some row → HasPrefix row markPrefix = false →
          things[s.l.SelectedRow.toNat]? = some row ∧ row ∉ s.selectedThings
            ∧ ∃ s1, toggle s = some s1 ∧ s1.l.current = some (markPrefix ++ row)
                ∧ s1.selectedThings = s.selectedThings ++ [row]
                ∧ toggle s1 = some s
                ∧ selectThings things (events ++ ["<Space>", "<Space>"])
                    = Outcome.waiting s := by
  obtain ⟨s, hloop, hinv⟩ :=
    eventLoop_invariant things hnd hnm events [] (initial things) (initial_invariant things hne) hev
  refine ⟨s, by rw [selectThings_eq_eventLoop things hne, hloop], ?_⟩
  intro row hrow hun
  have hlo := hinv.highlight_lo
  have hhi := hinv.highlight_hi
  have hk : s.l.SelectedRow.toNat < things.length := by omega
  have hcur := hinv.current_eq
  have hoff : ¬ toggledOn ([] ++ toggleTrace (initial things) events) s.l.SelectedRow.toNat
      = true := by
    intro hon
    rw [if_pos hon, hrow] at hcur
    have := Option.some.inj hcur
    rw [this, HasPrefix_mark_append] at hun
    exact Bool.noConfusion hun
  rw [if_neg hoff, hrow] at hcur
  have hroweq : row = thingAt things s.l.SelectedRow.toNat := Option.some.inj hcur
  have hnot : row ∉ s.selectedThings := by
    rw [hroweq]
    intro hm
    exact hoff ((hinv.mem_selected_iff hnd _ hk).1 hm)
  obtain ⟨s1, h1, h2, h3, h4⟩ := toggle_toggle s row hrow hun hnot
  refine ⟨?_, hnot, s1, h1, h2, h3, h4, ?_⟩
  · rw [List.getElem?_eq_getElem hk, hroweq, thingAt_eq_getElem things _ hk]
  · rw [selectThings_eq_eventLoop things hne, eventLoop_append events _ _ s hloop]
    have hs1 : step s "<Space>" = Step.next s1 := by
      simp [step, h1]
    have hs2 : step s1 "<Space>" = Step.next s := by
      simp [step, h4]
    simp [eventLoop, hs1, hs2]

/-- C7 amended, at the candidates `a, b, c` with `a` selected and the highlight
moved to row 1. -/
theorem toggle_twice_restores_witness :
    ∃ s, selectThings ["a", "b", "c"] ["<Space>", "j"] = Outcome.waiting s
      ∧ s.selectedThings = ["a"]
      ∧ selectThings ["a", "b", "c"] (["<Space>", "j"] ++ ["<Space>", "<Space>"])
          = Outcome.waiting s := by
  obtain ⟨s, hs, h⟩ := toggle_twice_restores ["a", "b", "c"] ["<Space>", "j"] (by decide)
    (by decide) (by decide) (by decide)
  have hval : s = { l := { Rows := ["[✔](fg:green):a", "b", "c"], SelectedRow := 1 },
                    selectedThings := ["a"] } := by
    have h0 : selectThings ["a", "b", "c"] ["<Space>", "j"]
        = Outcome.waiting { l := { Rows := ["[✔](fg:green):a", "b", "c"], SelectedRow := 1 },
                            selectedThings := ["a"] } := by decide
    rw [h0] at hs
    exact (Outcome.waiting.inj hs).symm
  obtain ⟨_, _, _, _, _, _, _, hback⟩ := h "b" (by rw [hval]; decide) (by decide)
  exact ⟨s, hs, by rw [hval], hback⟩

/-- An empty candidate list returns at once, whatever the events: no selection,
not cancelled (main.go 477-480). -/
theorem selectThings_nil (events : List String) :
    selectThings [] events = Outcome.returned [] false := rfl

/-- C10: for every non-empty candidate list (the loop is not entered on an
empty one) whose entries are pairwise distinct and none of which starts with
the mark, after every finite sequence of events other than Quit and Confirm
(moves, toggles, ignored events) the loop waits in a state `s` in which
(1) the highlight is on a row and the rows are as many as the candidates,
(2) the selected list has no duplicates, holds only original candidates, and
is the list of the candidates of the rows that are on, in the order they were
last toggled on, (3) a row carries the mark exactly when its candidate is in
the selected list, its text being the candidate with or without the mark; and
Quit returns the selected list, cancelled, Confirm with a non-empty selection
returns it, not cancelled, that list being exactly the marked candidates. -/
theorem selector_invariant (things events : List String) (hne : things ≠ [])
    (hnd : things.Nodup) (hnm : noMark things) (hev : ∀ e ∈ events, keepsLooping e) :
    ∃ s, selectThings things events = Outcome.waiting s
      ∧ (0 ≤ s.l.SelectedRow ∧ s.l.SelectedRow < (s.l.Rows.length : Int)
          ∧ s.l.Rows.length = things.length)
      ∧ (s.selectedThings.Nodup ∧ (∀ x ∈ s.selectedThings, x ∈ things)
          ∧ s.selectedThings
              = (selectedRows (toggleTrace (initial things) events)).map (thingAt things))
      ∧ (∀ k : Nat, k < things.length →
          (HasPrefix (s.l.Rows.getD k "") markPrefix = true
              ↔ thingAt things k ∈ s.selectedThings)
            ∧ s.l.Rows.getD k "" = (if thingAt things k ∈ s.selectedThings
                then markPrefix ++ thingAt things k else thingAt things k))
      ∧ selectThings things (events ++ ["q"]) = Outcome.returned s.selectedThings true
      ∧ selectThings things (events ++ ["<C-c>"]) = Outcome.returned s.selectedThings true
      ∧ (s.selectedThings ≠ [] →
          selectThings things (events ++ ["<Enter>"]) = Outcome.returned s.selectedThings false)
      ∧ (∀ c : String, c ∈ s.selectedThings ↔
          ∃ k : Nat, k < things.length ∧ c = thingAt things k
            ∧ HasPrefix (s.l.Rows.getD k "") markPrefix = true) := by
  obtain ⟨s, hloop, hinv⟩ :=
    eventLoop_invariant things hnd hnm events [] (initial things) (initial_invariant things hne) hev
  rw [List.nil_append] at hinv
  have hlo := hinv.highlight_lo
  have hhi := hinv.highlight_hi
  have hlen := hinv.rows_length
  have hvalid : ∀ j ∈ selectedRows (toggleTrace (initial things) events), j < things.length :=
    fun j hj => hinv.trace_valid j (toggledOn_mem _ j ((mem_selectedRows _ j).1 hj))
  have hmark : ∀ k : Nat, k < things.length →
      (HasPrefix (s.l.Rows.getD k "") markPrefix = true ↔ thingAt things k ∈ s.selectedThings) :=
    fun k hk => (hinv.marked_iff hnm k hk).trans (hinv.mem_selected_iff hnd k hk).symm
  refine ⟨s, by rw [selectThings_eq_eventLoop things hne, hloop], ⟨hlo, by omega, hlen⟩,
    ⟨?_, ?_, hinv.selected_eq⟩, ?_, ?_, ?_, ?_, ?_⟩
  · rw [hinv.selected_eq]
    apply List.Nodup.map_on _ (nodup_selectedRows _)
    intro x hx y hy hxy
    exact thingAt_inj things hnd x y (hvalid x hx) (hvalid y hy) hxy
  · intro x hx
    rw [hinv.selected_eq] at hx
    rcases List.mem_map.1 hx with ⟨j, hj, rfl⟩
    exact thingAt_mem things j (hvalid j hj)
  · intro k hk
    refine ⟨hmark k hk, ?_⟩
    rw [List.getD_eq_getElem?_getD, hinv.row_at k hk]
    by_cases hon : toggledOn (toggleTrace (initial things) events) k = true
    · have := (hinv.mem_selected_iff hnd k hk).2 hon
      simp [hon, this]
    · have : thingAt things k ∉ s.selectedThings :=
        fun hm => hon ((hinv.mem_selected_iff hnd k hk).1 hm)
      simp [hon, this]
  · rw [selectThings_eq_eventLoop things hne, eventLoop_append events _ _ s hloop]
    simp [eventLoop, step]
  · rw [selectThings_eq_eventLoop things hne, eventLoop_append events _ _ s hloop]
    simp [eventLoop, step]
  · intro hsel
    have hpos : ¬ s.selectedThings.length = 0 := fun h => hsel (List.length_eq_zero.1 h)
    rw [selectThings_eq_eventLoop things hne, eventLoop_append events _ _ s hloop]
    simp [eventLoop, step, hsel]
  · intro c
    constructor
    · intro hc
      have hc' := hc
      rw [hinv.selected_eq] at hc'
      rcases List.mem_map.1 hc' with ⟨j, hj, rfl⟩
      exact ⟨j, hvalid j hj, rfl, (hmark j (hvalid j hj)).2 hc⟩
    · rintro ⟨k, hk, rfl, hm⟩
      exact (hmark k hk).1 hm

/-- C10 at the candidates `a, b, c`: after toggles on rows 2, 1 and 0 and a
second toggle on row 1, Quit returns `["c", "a"]`. -/
theorem selector_invariant_witness :
    ∃ s, selectThings ["a", "b", "c"] ["k", "<Space>", "k", "<Space>", "k", "<Space>", "j",
        "<Space>"] = Outcome.waiting s
      ∧ s.selectedThings = ["c", "a"]
      ∧ selectThings ["a", "b", "c"] (["k", "<Space>", "k", "<Space>", "k", "<Space>", "j",
        "<Space>"] ++ ["q"]) = Outcome.returned s.selectedThings true := by
  obtain ⟨s, hs, _, ⟨_, _, hsel⟩, _, hq, _⟩ :=
    selector_invariant ["a", "b", "c"] ["k", "<Space>", "k", "<Space>", "k", "<Space>", "j",
      "<Space>"] (by decide) (by decide) (by decide) (by decide)
  refine ⟨s, hs, ?_, hq⟩
  rw [hsel]
  decide

end Prownow
